import Mathlib

/-!
Verification development for the `expire-fs` tree-snapshot builder and
dual-policy eviction engine (source: `src/index.js`, the `ExpireEntry` and
`ExpireFS` classes).

The JavaScript source is shallowly embedded as executable Lean functions:

* `Entry`/`Forest` mirror the in-memory `ExpireEntry` tree (a node's basename,
  its cached `Stats` — `null` until `populate` succeeds, hence `Option` — and
  the insertion-ordered `children` map, here an ordered forest keyed by name).
* Node paths are lists of segments relative to the watched root; the absolute
  string path JS stores per node is recovered as `folder ++ "/" ++ ...` and is
  carried alongside in flattened candidates for filter tests.
* Filesystem mutation is modelled by a log of operations (`Op`) plus an
  injected set `fails` of paths whose storage mutation fails (`fs.unlink` /
  `fs.rmdir` rejecting); a dry run performs no storage call and cannot fail,
  exactly as in the source (`dry ? console.log(...) : this._rm_file(...)`).
* JS numbers are embedded as `Int` (millisecond timestamps), `Nat` (sizes) and
  `Rat` (disk-usage fractions); `expire = Infinity` is `Option Int = none`.
* A JS exception escaping to the caller is an `Except` error; `Err.typeError`
  is the `TypeError` thrown by `get isDir()` reading `this._stats.isDirectory()`
  when `_stats` is `null`.
-/

namespace ExpireFS

/-- Subset of `fs.Stats` used by the source: byte size, the four timestamp
fields (milliseconds, as `Date#getTime()` of the corresponding `Date`), and
the directory flag (`Stats#isDirectory()`). -/
structure Stats where
  size : Nat
  atime : Int
  mtime : Int
  ctime : Int
  birthtime : Int
  isDirectory : Bool
deriving DecidableEq, Repr

instance : Inhabited Stats := ⟨⟨0, 0, 0, 0, 0, false⟩⟩

/-- The four valid timestamp-field selectors (`validTimeTypes` in the source). -/
inductive TimeType where
  | atime
  | mtime
  | ctime
  | birthtime
deriving DecidableEq, Repr

/-- `stats[timeType]` of the source (already as milliseconds). -/
def Stats.time (s : Stats) : TimeType → Int
  | .atime => s.atime
  | .mtime => s.mtime
  | .ctime => s.ctime
  | .birthtime => s.birthtime

/-- The inclusion filter: either a `RegExp` (tested against the path string
only) or a predicate function over path and stats, as in the source where
`filter` is `RegExp|function(String,Stats):Boolean`. A regex is embedded by
its match function on the path string. -/
inductive Filter where
  | regex (test : String → Bool)
  | pred (f : String → Stats → Bool)

/-- Configuration held on an `ExpireFS` instance after construction. -/
structure Config where
  folder : String
  timeType : TimeType
  filter : Filter
  /-- `expire` in milliseconds; `none` embeds the default `Infinity`. -/
  expire : Option Int
  /-- `pressure`: used-fraction threshold (default `1`). -/
  pressure : Rat
  removeEmptyDirs : Bool
  removeCleanedDirs : Bool

/-- An exception escaping to the caller of a cycle.  `typeError` is the JS
`TypeError` raised by the `isDir` getter on a node whose `_stats` is `null`;
`configError` is a constructor-time `Error`. -/
inductive Err where
  | typeError
  | configError (msg : String)
deriving DecidableEq, Repr

/-- A storage mutation performed by `delete` (path relative to the root). -/
inductive Op where
  | rmFile (p : List String)
  | rmDir (p : List String)
deriving DecidableEq, Repr

/-- A flattened tree entry as captured by `ExpireEntry.list()`: the node's
path (relative segments), its absolute path string (as JS `path.join` built
it), and its immutable captured stats. -/
structure Cand where
  path : List String
  pathStr : String
  stats : Stats
deriving DecidableEq, Repr

/-- One `diskusage.check` sample: total capacity and available space. -/
structure DiskUsage where
  total : Rat
  available : Rat
deriving DecidableEq, Repr

mutual
/-- In-memory `ExpireEntry`: basename, cached stats (`null` until populated,
hence `Option`), and the `children` map in insertion order. -/
inductive Entry where
  | node (name : String) (stats : Option Stats) (children : Forest)
deriving DecidableEq, Repr
/-- The ordered `children` collection of an `ExpireEntry` (a JS `Map` keyed by
basename, iterated in insertion order). -/
inductive Forest where
  | nil
  | cons (c : Entry) (rest : Forest)
deriving DecidableEq, Repr
end

deriving instance DecidableEq for Except

def Entry.name : Entry → String
  | .node n _ _ => n

def Entry.stats : Entry → Option Stats
  | .node _ st _ => st

def Entry.children : Entry → Forest
  | .node _ _ cs => cs

/-- `get isDir()` evaluated on a node that has stats.  In the source, reading
`isDir` of a node whose `_stats` is `null` throws a `TypeError`; whenever the
model reads this default (`false`) instead, the corresponding JS execution has
already thrown, and the guarded callers (`listE` and the policies) reproduce
that throw before ever reaching this default. -/
def Entry.isDirB (e : Entry) : Bool :=
  match e.stats with
  | some s => s.isDirectory
  | none => false

/-- `Map.prototype.get`-style lookup by basename (first match in insertion
order; names are unique in a real `Map`). -/
def Forest.findC : Forest → String → Option Entry
  | .nil, _ => none
  | .cons c rest, n => if c.name = n then some c else rest.findC n

/-- In-place replacement of the child named `n` (JS `Map.set` on an existing
key keeps its position). -/
def Forest.replaceC : Forest → String → Entry → Forest
  | .nil, _, _ => .nil
  | .cons c rest, n, x =>
      .cons (if c.name = n then x else c) (rest.replaceC n x)

/-- `Map.delete` by key. -/
def Forest.removeC : Forest → String → Forest
  | .nil, _ => .nil
  | .cons c rest, n =>
      if c.name = n then rest.removeC n else .cons c (rest.removeC n)

def Forest.isNil : Forest → Bool
  | .nil => true
  | .cons _ _ => false

def Forest.length : Forest → Nat
  | .nil => 0
  | .cons _ rest => 1 + rest.length

def Forest.containsName : Forest → String → Bool
  | .nil, _ => false
  | .cons c rest, n => c.name = n || rest.containsName n

/-- Resolve a node by its relative segment path (root itself at `[]`). -/
def Entry.findAt : Entry → List String → Option Entry
  | e, [] => some e
  | e, n :: p =>
      match e.children.findC n with
      | some c => c.findAt p
      | none => none

/-- Segment-path prefix test. -/
def isPref : List String → List String → Bool
  | [], _ => true
  | _ :: _, [] => false
  | a :: as, b :: bs => a = b && isPref as bs

/-- Two paths are incomparable when neither is a prefix of the other. -/
def Incomp (p q : List String) : Prop := isPref p q = false ∧ isPref q p = false

def Forest.nodupNames : Forest → Bool
  | .nil => true
  | .cons c rest => !(rest.containsName c.name) && rest.nodupNames

mutual
/-- Well-formedness of a populated node: stats are present, a non-directory
has no children, children names are unique (a JS `Map` invariant), and all
children are well-formed. -/
def Entry.wfB : Entry → Bool
  | .node _ none _ => false
  | .node _ (some s) cs => (s.isDirectory || cs.isNil) && cs.nodupNames && cs.wfF
def Forest.wfF : Forest → Bool
  | .nil => true
  | .cons c rest => c.wfB && rest.wfF
end

mutual
/-- `ExpireEntry.list()` restricted to the subtree of one entry: traversal of
this entry's children in document order.  For every child the callback pushes
the child, then `c.isDir` is read; if the child's `_stats` is `null` that read
throws a `TypeError`, discarding the whole traversal — hence the `Except`. -/
def Entry.listSub (baseStr : String) (basePath : List String) : Entry → Except Err (List Cand)
  | .node _ _ cs => cs.listGo baseStr basePath
/-- Sibling-by-sibling traversal loop of `ExpireEntry.traverse`, building the
flat list of `ExpireEntry.list()` (pre-order: a child, then its subtree, then
the next sibling). -/
def Forest.listGo (baseStr : String) (basePath : List String) : Forest → Except Err (List Cand)
  | .nil => .ok []
  | .cons c rest =>
      let cPath := basePath ++ [c.name]
      let cStr := baseStr ++ "/" ++ c.name
      match c.stats with
      | none => .error .typeError
      | some st =>
          if st.isDirectory then
            match c.listSub cStr cPath with
            | .error e => .error e
            | .ok sub =>
                match rest.listGo baseStr basePath with
                | .error e => .error e
                | .ok rs => .ok (⟨cPath, cStr, st⟩ :: (sub ++ rs))
          else
            match rest.listGo baseStr basePath with
            | .error e => .error e
            | .ok rs => .ok (⟨cPath, cStr, st⟩ :: rs)
end

/-- `entry.list()` on the root entry (the root itself is not listed; traversal
starts with its children). -/
def Entry.listE (rootStr : String) (t : Entry) : Except Err (List Cand) :=
  t.children.listGo rootStr []

mutual
/-- `ExpireEntry.delete({keepEmptyParent, dry})` restricted to the entry
itself and its subtree: storage mutation plus pruning, *without* the
detach-from-parent and parent-cascade steps (those live in `deleteAtAux`,
which models `this.parent.children.delete(...)` and the recursive
`this.parent.delete(...)`).  Returns `none` when the entry completed and will
detach from its parent, or `some` of the surviving (pruned) entry when its
own storage mutation failed (`catch` → `console.warn` → `return`).  `p` is
the entry's full relative path, `fails` the set of paths whose storage
mutation rejects. -/
def deleteNode (dry : Bool) (fails : List (List String)) (kep : Bool)
    (p : List String) : Entry → Option Entry × List Op
  | .node n st cs =>
      if (Entry.node n st cs).isDirB then
        let r := deleteChildren dry fails p cs
        if !kep then
          if dry then (none, r.2)
          else if p ∈ fails then (some (.node n st r.1), r.2)
          else (none, r.2 ++ [.rmDir p])
        else (none, r.2)
      else
        if dry then (none, [])
        else if p ∈ fails then (some (.node n st cs), [])
        else (none, [.rmFile p])
/-- The `Promise.all(this.childrenValues.map(child => child.delete({keepEmptyParent: true, dry})))`
fan-out: every child is deleted in keep-empty-parent mode; survivors are the
children whose storage mutation failed, kept in order. -/
def deleteChildren (dry : Bool) (fails : List (List String))
    (p : List String) : Forest → Forest × List Op
  | .nil => (.nil, [])
  | .cons c rest =>
      let rc := deleteNode dry fails true (p ++ [c.name]) c
      let rr := deleteChildren dry fails p rest
      (match rc.1 with
       | some x => .cons x rr.1
       | none => rr.1, rc.2 ++ rr.2)
end

/-- Shared unwind step of a `delete` call on a child named `n` of the node
`⟨en, est, cs⟩` (full path `p`): on success the child detaches itself from
`children` and, when `keepEmptyParent` is `false` and the map became empty,
recursively deletes this node (`this.parent.delete({keepEmptyParent, dry})`);
on failure the child stays, replaced by its pruned survivor. -/
def unwindStep (dry : Bool) (fails : List (List String)) (kep : Bool)
    (p : List String) (en : String) (est : Option Stats) (cs : Forest)
    (n : String) (res : Option Entry × List Op) : Option Entry × List Op :=
  match res with
  | (some c', log) => (some (.node en est (cs.replaceC n c')), log)
  | (none, log) =>
      let rest := cs.removeC n
      if !kep && rest.isNil then
        let r := deleteNode dry fails kep p (.node en est rest)
        (r.1, log ++ r.2)
      else (some (.node en est rest), log)

/-- Descend from the node `e` (full path `p`) along the nonempty relative path
to the target of a `delete` call, perform the deletion there, and apply the
detach/cascade bookkeeping on the way back up.  A `none` result means the
node `e` itself was deleted by the empty-parent cascade and detaches in turn.
An absent target leaves the tree unchanged (the policies never delete a
detached node, see the pre-order argument in the theorems below). -/
def deleteAtAux (dry : Bool) (fails : List (List String)) (kep : Bool)
    (p : List String) (e : Entry) : List String → Option Entry × List Op
  | [] => (some e, [])
  | [n] =>
      match e with
      | .node en est cs =>
          match cs.findC n with
          | none => (some e, [])
          | some c =>
              unwindStep dry fails kep p en est cs n
                (deleteNode dry fails kep (p ++ [n]) c)
  | n :: n' :: rel =>
      match e with
      | .node en est cs =>
          match cs.findC n with
          | none => (some e, [])
          | some c =>
              unwindStep dry fails kep p en est cs n
                (deleteAtAux dry fails kep (p ++ [n]) c (n' :: rel))

/-- `entry.delete({keepEmptyParent, dry})` called on the node at relative path
`rel` of the root `t`.  When the cascade consumes the root itself, the
in-memory root object remains (it has no parent to detach from) with its
`children` map empty. -/
def deleteAt (dry : Bool) (fails : List (List String)) (kep : Bool)
    (t : Entry) (rel : List String) : Entry × List Op :=
  match deleteAtAux dry fails kep [] t rel with
  | (some t', log) => (t', log)
  | (none, log) => (.node t.name t.stats .nil, log)

/-- `e.hasChildren` of the node currently at path `p` (the policies read it
through the live node reference; by the pre-order visiting argument the node
is still attached whenever this is read, so looking it up in the current tree
is equivalent; an absent node yields `false`, a case the policies never
reach). -/
def hasChildrenAt (t : Entry) (p : List String) : Bool :=
  match t.findAt p with
  | some n => !n.children.isNil
  | none => false

/-- `Date.now() - time.getTime() < this.expire` — with `expire = Infinity`
(`none`) every finite age is below the bound. -/
def ltExpire (a : Int) : Option Int → Bool
  | none => true
  | some v => a < v

/-- The value of the inclusion-filter test of `_shouldDelete`: a `RegExp`
is tested against the path, a function filter is applied to path and stats. -/
def filterMatch (f : Filter) (pathStr : String) (st : Stats) : Bool :=
  match f with
  | .regex test => test pathStr
  | .pred g => g pathStr st

/-- `ExpireFS._shouldDelete(path, stats)`: keep when the filter does not
match, keep when `now - stats[timeType] < expire`, otherwise delete. -/
def shouldDelete (cfg : Config) (now : Int) (pathStr : String) (st : Stats) : Bool :=
  if filterMatch cfg.filter pathStr st = false then false
  else if ltExpire (now - st.time cfg.timeType) cfg.expire then false
  else true

/-- Result of one policy run: the mutated tree, the entries pushed onto
`deleted`, and the storage mutations performed. -/
structure StepRes where
  tree : Entry
  deleted : List Cand
  log : List Op
deriving DecidableEq, Repr

/-- The body of `ExpireFS._expire`'s `for` loop over the captured flat list:
an empty directory is deleted and recorded when `removeEmptyDirs` is set,
directories are otherwise skipped, and a file is deleted and recorded exactly
when `_shouldDelete` holds.  Deletion uses
`keepEmptyParent: !this.removeCleanedDirs`. -/
def expireLoop (cfg : Config) (now : Int) (dry : Bool)
    (fails : List (List String)) : List Cand → Entry → StepRes
  | [], t => ⟨t, [], []⟩
  | c :: cs, t =>
      if cfg.removeEmptyDirs && c.stats.isDirectory && !hasChildrenAt t c.path then
        let d := deleteAt dry fails (!cfg.removeCleanedDirs) t c.path
        let r := expireLoop cfg now dry fails cs d.1
        ⟨r.tree, c :: r.deleted, d.2 ++ r.log⟩
      else if c.stats.isDirectory then
        expireLoop cfg now dry fails cs t
      else if shouldDelete cfg now c.pathStr c.stats then
        let d := deleteAt dry fails (!cfg.removeCleanedDirs) t c.path
        let r := expireLoop cfg now dry fails cs d.1
        ⟨r.tree, c :: r.deleted, d.2 ++ r.log⟩
      else
        expireLoop cfg now dry fails cs t

/-- `ExpireFS._expire({entry, dry})`: capture `entry.list()` (which throws if
a metadata-less node is reached), then run the deletion loop. -/
def expireModel (cfg : Config) (now : Int) (dry : Bool)
    (fails : List (List String)) (t : Entry) : Except Err StepRes :=
  match t.listE cfg.folder with
  | .error e => .error e
  | .ok l => .ok (expireLoop cfg now dry fails l t)

/-- Stable insertion of a candidate into a list sorted newest-first by `key`
(insertion sort is a stable sort, matching the required stability of JS
`Array.prototype.sort` with comparator `(a, b) => b.getTime(tt) - a.getTime(tt)`). -/
def insertD (key : Cand → Int) (x : Cand) : List Cand → List Cand
  | [] => [x]
  | y :: ys => if key x ≥ key y then x :: y :: ys else y :: insertD key x ys

/-- The `list.sort((a, b) => b.getTime(this.timeType) - a.getTime(this.timeType))`
sort: newest to oldest, stable. -/
def sortD (key : Cand → Int) : List Cand → List Cand
  | [] => []
  | x :: xs => insertD key x (sortD key xs)

/-- The `while (list.length && toFree > 0)` loop of `ExpireFS._pressure`,
processed here over the reversed (oldest-first) sorted list so that `pop()`
becomes taking the head: directories are skipped, a file decrements `toFree`
by its size, is deleted (`keepEmptyParent: !this.removeCleanedDirs`) and
recorded. -/
def presLoop (cfg : Config) (dry : Bool) (fails : List (List String)) :
    List Cand → Rat → Entry → StepRes
  | [], _, t => ⟨t, [], []⟩
  | c :: rest, toFree, t =>
      if toFree ≤ 0 then ⟨t, [], []⟩
      else if c.stats.isDirectory then presLoop cfg dry fails rest toFree t
      else
        let d := deleteAt dry fails (!cfg.removeCleanedDirs) t c.path
        let r := presLoop cfg dry fails rest (toFree - (c.stats.size : Rat)) d.1
        ⟨r.tree, c :: r.deleted, d.2 ++ r.log⟩

/-- `ExpireFS._pressure({entry, dry})`: capture `entry.list()`, sample disk
usage, return `[]` when `1 - available/total < pressure`, otherwise free
`(total - available) - total * pressure` bytes oldest-first. -/
def pressureModel (cfg : Config) (disk : DiskUsage) (dry : Bool)
    (fails : List (List String)) (t : Entry) : Except Err StepRes :=
  match t.listE cfg.folder with
  | .error e => .error e
  | .ok l =>
      if 1 - disk.available / disk.total < cfg.pressure then .ok ⟨t, [], []⟩
      else
        let toFree := (disk.total - disk.available) - disk.total * cfg.pressure
        let asc := (sortD (fun c => c.stats.time cfg.timeType) l).reverse
        .ok (presLoop cfg dry fails asc toFree t)

/-- `ExpireFS.clean({dry})` applied to an already-built tree: run the age
policy, then the pressure policy on the reduced tree, and concatenate the two
deletion lists (`deleted.push(...expire); deleted.push(...pressure)`). -/
def cleanModel (cfg : Config) (disk : DiskUsage) (now : Int) (dry : Bool)
    (fails : List (List String)) (t : Entry) : Except Err StepRes :=
  match expireModel cfg now dry fails t with
  | .error e => .error e
  | .ok r1 =>
      match pressureModel cfg disk dry fails r1.tree with
      | .error e => .error e
      | .ok r2 => .ok ⟨r2.tree, r1.deleted ++ r2.deleted, r1.log ++ r2.log⟩

/-- The filesystem interface consumed by `populate`: `fs.stat` and
`fs.readdir` keyed by relative segment path, each able to fail (the model
does not distinguish `ENOENT` from other codes because `populate` in the
source handles every rejection identically: `console.warn` and `return`). -/
structure FSIface where
  statP : List String → Except Unit Stats
  listDir : List String → Except Unit (List String)

/-- `ExpireEntry.populate()`: fetch stats (on failure, warn and stop — the
node stays registered in its parent's children with `_stats = null`); for a
directory, list children (on failure, warn and stop), register each listed
name except `.`/`..` as a child, and populate all children.  `fuel` bounds
the recursion depth (the JS recursion is bounded by the real directory tree);
any `fuel ≥` the filesystem depth gives the same result.  `populate` never
raises. -/
def populate (fs : FSIface) (fuel : Nat) (p : List String) (nm : String) : Entry :=
  match fuel with
  | 0 => .node nm none .nil
  | fuel + 1 =>
      match fs.statP p with
      | .error _ => .node nm none .nil
      | .ok st =>
          if !st.isDirectory then .node nm (some st) .nil
          else
            match fs.listDir p with
            | .error _ => .node nm (some st) .nil
            | .ok names =>
                .node nm (some st)
                  (ofList ((names.filter (fun n => !(n = ".") && !(n = ".."))).map
                    (fun n => populate fs fuel (p ++ [n]) n)))
where
  /-- Build the `children` map in listing order. -/
  ofList : List Entry → Forest
    | [] => .nil
    | e :: es => .cons e (ofList es)

/-- `ExpireFS.list()`: build a fresh root entry for the watched folder and
populate it. -/
def buildRoot (fs : FSIface) (fuel : Nat) : Entry :=
  populate fs fuel [] ""

/-- A full `clean` cycle from the filesystem: build the fresh tree, then run
both policies. -/
def cleanFS (cfg : Config) (disk : DiskUsage) (now : Int) (dry : Bool)
    (fails : List (List String)) (fs : FSIface) (fuel : Nat) : Except Err StepRes :=
  cleanModel cfg disk now dry fails (buildRoot fs fuel)

/-- The timestamp-selector strings accepted by the constructor
(`validTimeTypes` in the source). -/
def validTimeTypes : List String := ["atime", "mtime", "ctime", "birthtime"]

def TimeType.ofString : String → Option TimeType :=
  fun s =>
    if s = "atime" then some .atime
    else if s = "mtime" then some .mtime
    else if s = "ctime" then some .ctime
    else if s = "birthtime" then some .birthtime
    else none

/-- `path.sep` on the POSIX platform of the spec's scenarios. -/
def sepChar : Char := Char.ofNat 47

/-- `folder.split(path.sep).length` of the source: for a single-character
separator, the length of the split equals the number of separator
occurrences plus one, counted here directly over the string's characters
(so that the definition evaluates by kernel reduction). -/
def sepSegments (folder : String) : Nat :=
  (folder.data.filter (fun ch => ch = sepChar)).length + 1

/-- The validating part of the `ExpireFS` constructor.  `folder` is the
*resolved* watched path (`path.resolve` is the platform path library, modelled
as the identity on an already-absolute path; `path.sep` is `"/"`).
`allowRoot` is the source's boolean override option for watching a filesystem
root (its source name is a Lean keyword).  Checks in source order: missing
folder; a resolved folder of at most two separator segments without the
override; an invalid timestamp selector.  All three are raised synchronously
at construction; `cleanModel` above takes any `Config` and never raises a
configuration error. -/
def construct (folder : String) (allowRoot : Bool) (timeTypeStr : String)
    (filter : Filter) (expire : Option Int) (pressure : Rat)
    (removeEmptyDirs removeCleanedDirs : Bool) : Except Err Config :=
  if folder = "" then .error (.configError "folder should be specified")
  else if !allowRoot && sepSegments folder ≤ 2 then
    .error (.configError ("Cowardly refusing to watch folder " ++ folder ++
      " as it is a root folder."))
  else
    match TimeType.ofString timeTypeStr with
    | none => .error (.configError ("timeType should be one of " ++
        String.intercalate ", " validTimeTypes))
    | some tt =>
        .ok ⟨folder, tt, filter, expire, pressure, removeEmptyDirs, removeCleanedDirs⟩

/-! ### Basic lemmas about the children map -/

/-- Plain structural induction over a `Forest`, treating entries as opaque
(the mutual recursor needs two motives; this one suffices for lemmas that do
not descend into child subtrees). -/
theorem Forest.ind {motive : Forest → Prop} (nil : motive .nil)
    (cons : ∀ c rest, motive rest → motive (.cons c rest)) : ∀ f, motive f
  | .nil => nil
  | .cons c rest => cons c rest (Forest.ind nil cons rest)

theorem Forest.findC_name : ∀ {f : Forest} {n : String} {c : Entry},
    f.findC n = some c → c.name = n := by
  intro f
  induction f using Forest.ind with
  | nil => intro n c h; simp [Forest.findC] at h
  | cons x rest ih =>
      intro n c h
      simp only [Forest.findC] at h
      split at h
      · cases h; assumption
      · exact ih h

theorem Forest.containsName_of_findC : ∀ {f : Forest} {n : String} {c : Entry},
    f.findC n = some c → f.containsName n = true := by
  intro f
  induction f using Forest.ind with
  | nil => intro n c h; simp [Forest.findC] at h
  | cons x rest ih =>
      intro n c h
      simp only [Forest.findC] at h
      simp only [Forest.containsName, Bool.or_eq_true, decide_eq_true_eq]
      split at h
      · left; assumption
      · right; exact ih h

theorem Forest.findC_none_of_not_contains : ∀ {f : Forest} {n : String},
    f.containsName n = false → f.findC n = none := by
  intro f
  induction f using Forest.ind with
  | nil => intro n _; rfl
  | cons x rest ih =>
      intro n h
      simp only [Forest.containsName, Bool.or_eq_false_iff, decide_eq_false_iff_not] at h
      simp only [Forest.findC, if_neg h.1]
      exact ih h.2

theorem Forest.findC_replaceC_ne : ∀ {f : Forest} {n m : String} (x : Entry),
    x.name = n → m ≠ n → (f.replaceC n x).findC m = f.findC m := by
  intro f
  induction f using Forest.ind with
  | nil => intro n m x _ _; rfl
  | cons c rest ih =>
      intro n m x hx hne
      simp only [Forest.replaceC, Forest.findC]
      by_cases hc : c.name = n
      · simp only [if_pos hc]
        have hxm : ¬x.name = m := by rw [hx]; exact fun h => hne h.symm
        have hcm : ¬c.name = m := by rw [hc]; exact fun h => hne h.symm
        simp only [if_neg hxm, if_neg hcm]
        exact ih x hx hne
      · simp only [if_neg hc, Forest.findC]
        split
        · rfl
        · exact ih x hx hne

theorem Forest.findC_replaceC_eq : ∀ {f : Forest} {n : String} {c : Entry} (x : Entry),
    f.findC n = some c → x.name = n → (f.replaceC n x).findC n = some x := by
  intro f
  induction f using Forest.ind with
  | nil => intro n c x h _; simp [Forest.findC] at h
  | cons y rest ih =>
      intro n c x h hx
      simp only [Forest.findC] at h
      simp only [Forest.replaceC, Forest.findC]
      by_cases hy : y.name = n
      · rw [if_pos hy]
        simp [Forest.findC, hx]
      · simp only [if_neg hy] at h ⊢
        exact ih x h hx

theorem Forest.findC_removeC_ne : ∀ {f : Forest} {n m : String},
    m ≠ n → (f.removeC n).findC m = f.findC m := by
  intro f
  induction f using Forest.ind with
  | nil => intro n m _; rfl
  | cons c rest ih =>
      intro n m hne
      simp only [Forest.removeC, Forest.findC]
      by_cases hc : c.name = n
      · have hcm : ¬c.name = m := by rw [hc]; exact fun h => hne h.symm
        simp only [if_pos hc, if_neg hcm]
        exact ih hne
      · simp only [if_neg hc, Forest.findC]
        split
        · rfl
        · exact ih hne

theorem Forest.findC_removeC_eq : ∀ {f : Forest} {n : String},
    (f.removeC n).findC n = none := by
  intro f
  induction f using Forest.ind with
  | nil => intro n; rfl
  | cons c rest ih =>
      intro n
      simp only [Forest.removeC]
      by_cases hc : c.name = n
      · simp only [if_pos hc]; exact ih
      · simp only [if_neg hc, Forest.findC, if_neg hc]; exact ih

theorem Forest.replaceC_self : ∀ {f : Forest} {n : String} {c : Entry},
    f.nodupNames = true → f.findC n = some c → f.replaceC n c = f := by
  intro f
  induction f using Forest.ind with
  | nil => intro n c _ h; simp [Forest.findC] at h
  | cons y rest ih =>
      intro n c hnd h
      simp only [Forest.nodupNames, Bool.and_eq_true, Bool.not_eq_true'] at hnd
      simp only [Forest.findC] at h
      simp only [Forest.replaceC]
      by_cases hy : y.name = n
      · simp only [if_pos hy] at h ⊢
        cases h
        have : rest.replaceC n y = rest := by
          have hnc : rest.containsName y.name = false := hnd.1
          clear ih hnd
          induction rest using Forest.ind with
          | nil => rfl
          | cons z rz ihz =>
              simp only [Forest.containsName, Bool.or_eq_false_iff,
                decide_eq_false_iff_not] at hnc
              simp only [Forest.replaceC]
              have hz : ¬z.name = n := by
                intro hh; exact hnc.1 (by rw [hy]; exact hh)
              rw [if_neg hz, ihz hnc.2]
        rw [this]
      · simp only [if_neg hy] at h ⊢
        rw [ih hnd.2 h]

theorem Forest.removeC_nil_findC : ∀ {f : Forest} {n m : String},
    f.removeC n = .nil → m ≠ n → f.findC m = none := by
  intro f
  induction f using Forest.ind with
  | nil => intro n m _ _; rfl
  | cons c rest ih =>
      intro n m h hne
      simp only [Forest.removeC] at h
      by_cases hc : c.name = n
      · simp only [if_pos hc] at h
        have hcm : ¬c.name = m := by rw [hc]; exact fun hh => hne hh.symm
        simp only [Forest.findC, if_neg hcm]
        exact ih h hne
      · simp only [if_neg hc] at h
        cases h

/-- With unique names, removing the (found) key `n` empties the map iff it
was the single entry. -/
theorem Forest.removeC_nil_iff : ∀ {f : Forest} {n : String} {c : Entry},
    f.nodupNames = true → f.findC n = some c →
    (f.removeC n = .nil ↔ f.length = 1) := by
  intro f
  induction f using Forest.ind with
  | nil => intro n c _ h; simp [Forest.findC] at h
  | cons y rest ih =>
      intro n c hnd h
      simp only [Forest.nodupNames, Bool.and_eq_true, Bool.not_eq_true'] at hnd
      simp only [Forest.findC] at h
      simp only [Forest.removeC, Forest.length]
      by_cases hy : y.name = n
      · simp only [if_pos hy]
        have hrest : rest.removeC n = rest := by
          have hnc : rest.containsName y.name = false := hnd.1
          rw [hy] at hnc
          clear ih hnd h
          induction rest using Forest.ind with
          | nil => rfl
          | cons z rz ihz =>
              simp only [Forest.containsName, Bool.or_eq_false_iff,
                decide_eq_false_iff_not] at hnc
              simp only [Forest.removeC, if_neg hnc.1, ihz hnc.2]
        rw [hrest]
        constructor
        · intro hr; rw [hr]; rfl
        · intro hl
          cases rest with
          | nil => rfl
          | cons _ _ => simp only [Forest.length] at hl; omega
      · simp only [if_neg hy] at h
        simp only [if_neg hy]
        constructor
        · intro hh; cases hh
        · intro hl
          exfalso
          have := (ih hnd.2 h).2
          have hlen : rest.length = 0 := by omega
          cases rest with
          | nil => simp [Forest.findC] at h
          | cons _ _ => simp only [Forest.length] at hlen; omega

/-! ### findAt lemmas -/

theorem Entry.findAt_append (e : Entry) (a b : List String) :
    e.findAt (a ++ b) = (e.findAt a).bind (fun n => n.findAt b) := by
  induction a generalizing e with
  | nil => simp [Entry.findAt]
  | cons x xs ih =>
      simp only [List.cons_append, Entry.findAt]
      cases h : e.children.findC x with
      | none => simp
      | some c => simp [ih c]

theorem Entry.findAt_cons (e : Entry) (n : String) (p : List String) (c : Entry)
    (h : e.children.findC n = some c) : e.findAt (n :: p) = c.findAt p := by
  simp [Entry.findAt, h]

/-! ### wf lemmas -/

theorem Forest.wfF_findC : ∀ {f : Forest} {n : String} {c : Entry},
    f.wfF = true → f.findC n = some c → c.wfB = true := by
  intro f
  induction f using Forest.ind with
  | nil => intro n c _ h; simp [Forest.findC] at h
  | cons x rest ih =>
      intro n c hwf h
      simp only [Forest.wfF, Bool.and_eq_true] at hwf
      simp only [Forest.findC] at h
      split at h
      · cases h; exact hwf.1
      · exact ih hwf.2 h

theorem Entry.wfB_children : ∀ {e : Entry}, e.wfB = true →
    e.children.nodupNames = true ∧ e.children.wfF = true := by
  intro e h
  cases e with
  | node n st cs =>
      cases st with
      | none => simp [Entry.wfB] at h
      | some s =>
          simp only [Entry.wfB, Bool.and_eq_true] at h
          exact ⟨h.1.2, h.2⟩

theorem Entry.wfB_stats : ∀ {e : Entry}, e.wfB = true → ∃ s, e.stats = some s := by
  intro e h
  cases e with
  | node n st cs =>
      cases st with
      | none => simp [Entry.wfB] at h
      | some s => exact ⟨s, rfl⟩

/-- In a well-formed node a non-directory has no children. -/
theorem Entry.wfB_file_children : ∀ {e : Entry}, e.wfB = true →
    e.isDirB = false → e.children = .nil := by
  intro e h hf
  cases e with
  | node n st cs =>
      cases st with
      | none => simp [Entry.wfB] at h
      | some s =>
          simp only [Entry.wfB, Bool.and_eq_true, Bool.or_eq_true] at h
          simp only [Entry.isDirB, Entry.stats] at hf
          rcases h.1.1 with hd | hnil
          · rw [hf] at hd; cases hd
          · cases cs with
            | nil => rfl
            | cons _ _ => simp [Forest.isNil] at hnil

theorem Entry.wfB_findAt : ∀ (p : List String) {e : Entry} {n : Entry},
    e.wfB = true → e.findAt p = some n → n.wfB = true := by
  intro p
  induction p with
  | nil => intro e n hwf h; cases h; exact hwf
  | cons x xs ih =>
      intro e n hwf h
      simp only [Entry.findAt] at h
      cases hc : e.children.findC x with
      | none => rw [hc] at h; cases h
      | some c =>
          rw [hc] at h
          exact ih (Forest.wfF_findC (Entry.wfB_children hwf).2 hc) h

/-! ### deleteNode / deleteAtAux structure lemmas -/

/-- With no storage failures, a `delete` call on a node always completes and
detaches it (lemma "N"): in dry mode nothing can fail, and in wet mode every
`unlink`/`rmdir` outside the failure set succeeds. -/
theorem deleteNode_none_nofail (dry : Bool) (kep : Bool) (p : List String)
    (e : Entry) : (deleteNode dry [] kep p e).1 = none := by
  cases e with
  | node n st cs =>
      simp only [deleteNode]
      split
      · split
        · split
          · rfl
          · split
            · simp at *
            · rfl
        · rfl
      · split
        · rfl
        · split
          · simp at *
          · rfl

/-- The node surviving a failed `delete` keeps its name and stats (only its
children were pruned). -/
theorem deleteNode_some_meta {dry : Bool} {fails : List (List String)}
    {kep : Bool} {p : List String} {e e' : Entry}
    (h : (deleteNode dry fails kep p e).1 = some e') :
    e'.name = e.name ∧ e'.stats = e.stats := by
  cases e with
  | node n st cs =>
      simp only [deleteNode] at h
      split at h
      · split at h
        · split at h
          · cases h
          · split at h
            · cases h
              exact ⟨rfl, rfl⟩
            · cases h
        · cases h
      · split at h
        · cases h
        · split at h
          · cases h
            exact ⟨rfl, rfl⟩
          · cases h

/-- `delete` detaches the target iff it was a dry run, or a directory kept
with `keepEmptyParent` (no storage call at all), or the storage mutation was
not in the failure set. -/
theorem deleteNode_fst_none_iff (dry : Bool) (fails : List (List String))
    (kep : Bool) (p : List String) (e : Entry) :
    (deleteNode dry fails kep p e).1 = none ↔
      (dry = true ∨ (e.isDirB = true ∧ kep = true) ∨ p ∉ fails) := by
  cases e with
  | node n st cs =>
      simp only [deleteNode]
      by_cases hd : (Entry.node n st cs).isDirB = true
      · simp only [if_pos hd]
        by_cases hk : kep
        · simp [hk, hd]
        · simp only [Bool.not_eq_true] at hk
          simp only [hk, Bool.not_false, if_pos]
          by_cases hdry : dry = true
          · simp [hdry]
          · simp only [Bool.not_eq_true] at hdry
            subst hdry
            by_cases hf : p ∈ fails
            · simp [hf, hd]
            · simp [hf]
      · simp only [Bool.not_eq_true] at hd
        simp only [hd, Bool.false_eq_true, if_false]
        by_cases hdry : dry = true
        · simp [hdry]
        · simp only [Bool.not_eq_true] at hdry
          subst hdry
          by_cases hf : p ∈ fails
          · simp [hf]
          · simp [hf]

/-- A failed file deletion leaves the node untouched. -/
theorem deleteNode_file_stay {fails : List (List String)} {kep : Bool}
    {p : List String} {e : Entry} (hf : e.isDirB = false) (hp : p ∈ fails) :
    deleteNode false fails kep p e = (some e, []) := by
  cases e with
  | node n st cs =>
      simp only [deleteNode]
      simp only [Entry.isDirB] at hf ⊢
      split
      · simp_all
      · simp [hp]

/-- Unwind equation: the child survived, so it is replaced in place and no
cascade happens. -/
theorem unwindStep_some (dry : Bool) (fails : List (List String)) (kep : Bool)
    (p : List String) (en : String) (est : Option Stats) (cs : Forest)
    (n : String) (c' : Entry) (log : List Op) :
    unwindStep dry fails kep p en est cs n (some c', log) =
      (some (.node en est (cs.replaceC n c')), log) := rfl

theorem unwindStep_fst_some (dry : Bool) (fails : List (List String))
    (kep : Bool) (p : List String) (en : String) (est : Option Stats)
    (cs : Forest) (n : String) {res : Option Entry × List Op} {c' : Entry}
    (h : res.1 = some c') :
    (unwindStep dry fails kep p en est cs n res).1 =
      some (.node en est (cs.replaceC n c')) := by
  obtain ⟨o, l⟩ := res
  simp only at h
  subst h
  rfl

/-- Unwind equation with no storage failures: the child detached; the node
cascades away iff `keepEmptyParent` is false and the map became empty. -/
theorem unwindStep_fst_none (dry : Bool) (kep : Bool) (p : List String)
    (en : String) (est : Option Stats) (cs : Forest) (n : String)
    {res : Option Entry × List Op} (h : res.1 = none) :
    (unwindStep dry [] kep p en est cs n res).1 =
      (if !kep && (cs.removeC n).isNil then none
       else some (.node en est (cs.removeC n))) := by
  obtain ⟨o, l⟩ := res
  simp only at h
  subst h
  simp only [unwindStep]
  split
  · simpa using deleteNode_none_nofail dry kep p (Entry.node en est (cs.removeC n))
  · rfl

/-- Dry parity of the tree effect of a `delete` call (with no storage
failures): the surviving tree shape is identical whether the storage calls
are performed or only logged. -/
theorem deleteAtAux_fst_dry (fails0 : List (List String)) (kep : Bool) :
    ∀ (rel : List String) (p : List String) (e : Entry), fails0 = [] →
    (deleteAtAux true fails0 kep p e rel).1 = (deleteAtAux false fails0 kep p e rel).1 := by
  intro rel
  induction rel with
  | nil => intro p e _; rfl
  | cons n rel' ih =>
      intro p e hf
      subst hf
      cases rel' with
      | nil =>
          cases e with
          | node en est cs =>
              cases hc : cs.findC n with
              | none => simp only [deleteAtAux, hc]
              | some c =>
                  simp only [deleteAtAux, hc]
                  rw [unwindStep_fst_none true kep p en est cs n
                      (deleteNode_none_nofail true kep (p ++ [n]) c),
                    unwindStep_fst_none false kep p en est cs n
                      (deleteNode_none_nofail false kep (p ++ [n]) c)]
      | cons n2 rel2 =>
          cases e with
          | node en est cs =>
              cases hc : cs.findC n with
              | none => simp only [deleteAtAux, hc]
              | some c =>
                  simp only [deleteAtAux, hc]
                  have hih := ih (p ++ [n]) c rfl
                  cases ho : (deleteAtAux false [] kep (p ++ [n]) c (n2 :: rel2)).1 with
                  | none =>
                      rw [ho] at hih
                      rw [unwindStep_fst_none true kep p en est cs n hih,
                        unwindStep_fst_none false kep p en est cs n ho]
                  | some c' =>
                      rw [ho] at hih
                      rw [unwindStep_fst_some true [] kep p en est cs n hih,
                        unwindStep_fst_some false [] kep p en est cs n ho]

/-- The node surviving a `delete` call keeps its name and stats. -/
theorem deleteAtAux_some_meta {dry : Bool} {fails : List (List String)}
    {kep : Bool} {p rel : List String} {e e' : Entry} {log : List Op}
    (h : deleteAtAux dry fails kep p e rel = (some e', log)) :
    e'.name = e.name ∧ e'.stats = e.stats := by
  match rel with
  | [] =>
      simp only [deleteAtAux] at h
      cases h; exact ⟨rfl, rfl⟩
  | [n] =>
      cases e with
      | node en est cs =>
          simp only [deleteAtAux] at h
          cases hc : cs.findC n with
          | none => rw [hc] at h; cases h; exact ⟨rfl, rfl⟩
          | some c =>
              rw [hc] at h
              simp only [unwindStep] at h
              split at h
              · cases h; exact ⟨rfl, rfl⟩
              · split at h
                · cases hd : (deleteNode dry fails kep p
                    (.node en est (cs.removeC n))).1 with
                  | none => simp [hd] at h
                  | some x =>
                      simp only [hd] at h
                      cases h
                      have := deleteNode_some_meta (by rw [hd])
                      simpa using this
                · cases h; exact ⟨rfl, rfl⟩
  | n :: n2 :: rel2 =>
      cases e with
      | node en est cs =>
          simp only [deleteAtAux] at h
          cases hc : cs.findC n with
          | none => rw [hc] at h; cases h; exact ⟨rfl, rfl⟩
          | some c =>
              rw [hc] at h
              simp only [unwindStep] at h
              split at h
              · cases h; exact ⟨rfl, rfl⟩
              · split at h
                · cases hd : (deleteNode dry fails kep p
                    (.node en est (cs.removeC n))).1 with
                  | none => simp [hd] at h
                  | some x =>
                      simp only [hd] at h
                      cases h
                      have := deleteNode_some_meta (by rw [hd])
                      simpa using this
                · cases h; exact ⟨rfl, rfl⟩

theorem Incomp_ne_nil {q rel : List String} (h : Incomp q rel) : q ≠ [] := by
  intro hq
  subst hq
  exact absurd h.1 (by simp [isPref])

theorem Incomp_cons {m n : String} {q' rel' : List String}
    (h : Incomp (m :: q') (n :: rel')) : m ≠ n ∨ (m = n ∧ Incomp q' rel') := by
  by_cases hmn : m = n
  · right
    refine ⟨hmn, ?_, ?_⟩
    · have := h.1
      simp only [isPref, Bool.and_eq_false_iff, decide_eq_false_iff_not] at this
      rcases this with h' | h'
      · exact absurd hmn h'
      · exact h'
    · have := h.2
      simp only [isPref, Bool.and_eq_false_iff, decide_eq_false_iff_not] at this
      rcases this with h' | h'
      · exact absurd hmn.symm h'
      · exact h'
  · left; exact hmn

/-- A `delete` on a childless node never changes name, stats or (empty)
children of a survivor. -/
theorem deleteNode_fst_nil_children {dry : Bool} {fails : List (List String)}
    {kep : Bool} {p : List String} {en : String} {est : Option Stats} {x : Entry}
    (h : (deleteNode dry fails kep p (.node en est .nil)).1 = some x) :
    x = .node en est .nil := by
  simp only [deleteNode, deleteChildren] at h
  split at h
  · split at h
    · split at h
      · cases h
      · split at h
        · cases h; rfl
        · cases h
    · cases h
  · split at h
    · cases h
    · split at h
      · cases h; rfl
      · cases h

theorem Entry.findAt_cons_none (e : Entry) (n : String) (p : List String)
    (h : e.children.findC n = none) : e.findAt (n :: p) = none := by
  cases e with
  | node en est cs =>
      simp only [Entry.children] at h
      simp [Entry.findAt, Entry.children, h]

/-- Outcome of the unwind when the child detached: either the node survives
with the child removed from its map, or (empty-parent cascade, map emptied)
the node itself detaches. -/
theorem unwindStep_none_out (dry : Bool) (fails : List (List String))
    (kep : Bool) (p : List String) (en : String) (est : Option Stats)
    (cs : Forest) (n : String) {res : Option Entry × List Op}
    (hres : res.1 = none) :
    (∀ e', (unwindStep dry fails kep p en est cs n res).1 = some e' →
        e' = .node en est (cs.removeC n)) ∧
    ((unwindStep dry fails kep p en est cs n res).1 = none →
        cs.removeC n = .nil) := by
  obtain ⟨o, l⟩ := res
  simp only at hres
  subst hres
  simp only [unwindStep]
  split
  · rename_i hcas
    simp only [Bool.and_eq_true, Bool.not_eq_true'] at hcas
    have hnil : cs.removeC n = .nil := by
      cases hrem : cs.removeC n with
      | nil => rfl
      | cons a b => rw [hrem] at hcas; simp [Forest.isNil] at hcas
    rw [hnil]
    constructor
    · intro e' he
      simp only at he
      exact deleteNode_fst_nil_children he
    · intro _; rfl
  · constructor
    · intro e' he
      simp only at he
      cases he; rfl
    · intro he
      simp only at he
      cases he

/-- Core preservation lemma (source: `ExpireEntry.delete` touches only the
target's subtree and, through the empty-parent cascade, its ancestors): a
`delete` aimed at relative path `rel` leaves every node on an incomparable
path untouched, and if the deletion consumed the node `e` itself then
incomparable paths were already absent (the cascade only fires on an emptied
children map). -/
theorem deleteAtAux_fst_incomp :
    ∀ (rel : List String) (dry : Bool) (fails : List (List String)) (kep : Bool)
      (p : List String) (e : Entry), e.wfB = true →
    ∀ q : List String, Incomp q rel →
    (∀ e', (deleteAtAux dry fails kep p e rel).1 = some e' →
        e'.findAt q = e.findAt q) ∧
    ((deleteAtAux dry fails kep p e rel).1 = none → e.findAt q = none) := by
  intro rel
  induction rel with
  | nil =>
      intro dry fails kep p e _ q hq
      exact absurd hq.2 (by simp [isPref])
  | cons n rel' ih =>
      intro dry fails kep p e hwf q hq
      obtain ⟨m, q', rfl⟩ : ∃ m q', q = m :: q' := by
        cases q with
        | nil => exact absurd rfl (Incomp_ne_nil hq)
        | cons a b => exact ⟨a, b, rfl⟩
      cases e with
      | node en est cs =>
      have hwff : cs.wfF = true := (Entry.wfB_children hwf).2
      cases rel' with
      | nil =>
          -- target is a direct child named n; here m = n is impossible
          have hmn : m ≠ n := by
            rcases Incomp_cons hq with h | ⟨_, h⟩
            · exact h
            · exact absurd h.2 (by simp [isPref])
          cases hc : cs.findC n with
          | none =>
              simp only [deleteAtAux, hc]
              exact ⟨fun e' he => by cases he; rfl, fun he => by cases he⟩
          | some c =>
              simp only [deleteAtAux, hc]
              have hcn : c.name = n := Forest.findC_name hc
              cases hres : (deleteNode dry fails kep (p ++ [n]) c).1 with
              | some c' =>
                  have hc'n : c'.name = n := by
                    rw [(deleteNode_some_meta hres).1, hcn]
                  refine ⟨?_, ?_⟩
                  · intro e' he
                    rw [unwindStep_fst_some dry fails kep p en est cs n hres] at he
                    cases he
                    show Entry.findAt _ (m :: q') = Entry.findAt _ (m :: q')
                    simp only [Entry.findAt, Entry.children]
                    rw [Forest.findC_replaceC_ne c' hc'n hmn]
                  · intro he
                    rw [unwindStep_fst_some dry fails kep p en est cs n hres] at he
                    cases he
              | none =>
                  have hout := unwindStep_none_out dry fails kep p en est cs n hres
                  refine ⟨?_, ?_⟩
                  · intro e' he
                    have he' := hout.1 e' he
                    subst he'
                    show Entry.findAt _ (m :: q') = Entry.findAt _ (m :: q')
                    simp only [Entry.findAt, Entry.children]
                    rw [Forest.findC_removeC_ne hmn]
                  · intro he
                    have hnil := hout.2 he
                    exact Entry.findAt_cons_none _ m q'
                      (by simp only [Entry.children]
                          exact Forest.removeC_nil_findC hnil hmn)
      | cons n2 rel2 =>
          cases hc : cs.findC n with
          | none =>
              simp only [deleteAtAux, hc]
              exact ⟨fun e' he => by cases he; rfl, fun he => by cases he⟩
          | some c =>
              simp only [deleteAtAux, hc]
              have hcn : c.name = n := Forest.findC_name hc
              have hcwf : c.wfB = true := Forest.wfF_findC hwff hc
              have hihc := ih dry fails kep (p ++ [n]) c hcwf
              cases hres : (deleteAtAux dry fails kep (p ++ [n]) c (n2 :: rel2)).1 with
              | some c'' =>
                  have hc''n : c''.name = n := by
                    rw [(deleteAtAux_some_meta (Prod.ext hres rfl)).1, hcn]
                  refine ⟨?_, ?_⟩
                  · intro e' he
                    rw [unwindStep_fst_some dry fails kep p en est cs n hres] at he
                    cases he
                    rcases Incomp_cons hq with hmn | ⟨heq, hq'⟩
                    · show Entry.findAt _ (m :: q') = Entry.findAt _ (m :: q')
                      simp only [Entry.findAt, Entry.children]
                      rw [Forest.findC_replaceC_ne c'' hc''n hmn]
                    · subst heq
                      rw [Entry.findAt_cons _ m q' c'' (by
                            simp only [Entry.children]
                            exact Forest.findC_replaceC_eq c'' hc hc''n),
                        Entry.findAt_cons _ m q' c (by
                            simp only [Entry.children]; exact hc)]
                      exact (hihc q' hq').1 c'' hres
                  · intro he
                    rw [unwindStep_fst_some dry fails kep p en est cs n hres] at he
                    cases he
              | none =>
                  have hout := unwindStep_none_out dry fails kep p en est cs n hres
                  refine ⟨?_, ?_⟩
                  · intro e' he
                    have he' := hout.1 e' he
                    subst he'
                    rcases Incomp_cons hq with hmn | ⟨heq, hq'⟩
                    · show Entry.findAt _ (m :: q') = Entry.findAt _ (m :: q')
                      simp only [Entry.findAt, Entry.children]
                      rw [Forest.findC_removeC_ne hmn]
                    · subst heq
                      rw [Entry.findAt_cons_none _ m q' (by
                            simp only [Entry.children]
                            exact Forest.findC_removeC_eq),
                        Entry.findAt_cons _ m q' c (by
                            simp only [Entry.children]; exact hc)]
                      exact ((hihc q' hq').2 hres).symm
                  · intro he
                    have hnil := hout.2 he
                    rcases Incomp_cons hq with hmn | ⟨heq, hq'⟩
                    · exact Entry.findAt_cons_none _ m q'
                        (by simp only [Entry.children]
                            exact Forest.removeC_nil_findC hnil hmn)
                    · subst heq
                      rw [Entry.findAt_cons _ m q' c (by
                            simp only [Entry.children]; exact hc)]
                      exact (hihc q' hq').2 hres


/-- Count of children of the node at `q` (0 when absent). -/
def Entry.childCountAt (e : Entry) (q : List String) : Nat :=
  match e.findAt q with
  | some x => x.children.length
  | none => 0

theorem Entry.childCountAt_cons {e c : Entry} {n : String} (q : List String)
    (h : e.children.findC n = some c) :
    e.childCountAt (n :: q) = c.childCountAt q := by
  cases e with
  | node en est cs =>
      simp only [Entry.children] at h
      simp [Entry.childCountAt, Entry.findAt, Entry.children, h]

theorem Entry.childCountAt_nil (e : Entry) :
    e.childCountAt [] = e.children.length := by
  simp [Entry.childCountAt, Entry.findAt]

/-- After a `delete` aimed at `rel`, the target is gone whenever its own
storage mutation succeeded (dry run, keep-empty-parent directory, or not in
the failure set). -/
theorem deleteAtAux_target_gone :
    ∀ (rel : List String) (dry : Bool) (fails : List (List String)) (kep : Bool)
      (p : List String) (e : Entry) (qn : Entry),
      e.findAt rel = some qn → rel ≠ [] →
      (dry = true ∨ (qn.isDirB = true ∧ kep = true) ∨ (p ++ rel) ∉ fails) →
      ∀ e', (deleteAtAux dry fails kep p e rel).1 = some e' →
        e'.findAt rel = none := by
  intro rel
  induction rel with
  | nil => intro _ _ _ _ _ _ _ hne _; exact absurd rfl hne
  | cons n rel' ih =>
      intro dry fails kep p e qn hq _ hdrop e' he
      cases e with
      | node en est cs =>
      cases rel' with
      | nil =>
          cases hc : cs.findC n with
          | none =>
              rw [Entry.findAt_cons_none _ n [] (by simpa using hc)] at hq
              cases hq
          | some c =>
              have hqc : qn = c := by
                rw [Entry.findAt_cons _ n [] c (by simpa using hc)] at hq
                simpa [Entry.findAt] using hq.symm
              subst hqc
              simp only [deleteAtAux, hc] at he
              have hdel : (deleteNode dry fails kep (p ++ [n]) qn).1 = none := by
                rw [deleteNode_fst_none_iff]
                exact hdrop
              have hout := unwindStep_none_out dry fails kep p en est cs n hdel
              have he' := hout.1 e' he
              subst he'
              exact Entry.findAt_cons_none _ n []
                (by simp only [Entry.children]; exact Forest.findC_removeC_eq)
      | cons n2 rel2 =>
          cases hc : cs.findC n with
          | none =>
              rw [Entry.findAt_cons_none _ n (n2 :: rel2) (by simpa using hc)] at hq
              cases hq
          | some c =>
              have hq' : c.findAt (n2 :: rel2) = some qn := by
                rw [Entry.findAt_cons _ n (n2 :: rel2) c (by simpa using hc)] at hq
                exact hq
              simp only [deleteAtAux, hc] at he
              have hdrop' : dry = true ∨ (qn.isDirB = true ∧ kep = true) ∨
                  ((p ++ [n]) ++ (n2 :: rel2)) ∉ fails := by
                rcases hdrop with h | h | h
                · exact Or.inl h
                · exact Or.inr (Or.inl h)
                · refine Or.inr (Or.inr ?_)
                  intro hmem
                  apply h
                  simpa using hmem
              cases hres : (deleteAtAux dry fails kep (p ++ [n]) c (n2 :: rel2)).1 with
              | some c'' =>
                  rw [unwindStep_fst_some dry fails kep p en est cs n hres] at he
                  cases he
                  have hc''n : c''.name = n := by
                    rw [(deleteAtAux_some_meta (Prod.ext hres rfl)).1,
                      Forest.findC_name hc]
                  rw [Entry.findAt_cons _ n (n2 :: rel2) c'' (by
                        simp only [Entry.children]
                        exact Forest.findC_replaceC_eq c'' hc hc''n)]
                  exact ih dry fails kep (p ++ [n]) c qn hq' (by simp) hdrop' c'' hres
              | none =>
                  have hout := unwindStep_none_out dry fails kep p en est cs n hres
                  have he' := hout.1 e' he
                  subst he'
                  exact Entry.findAt_cons_none _ n (n2 :: rel2)
                    (by simp only [Entry.children]; exact Forest.findC_removeC_eq)

/-- After a wet `delete` whose storage mutation for the target fails, the
target stays attached, its name and stats intact (children possibly pruned),
and no cascade fires anywhere above it. -/
theorem deleteAtAux_target_stay :
    ∀ (rel : List String) (fails : List (List String)) (kep : Bool)
      (p : List String) (e : Entry) (qn : Entry),
      e.findAt rel = some qn → rel ≠ [] →
      (p ++ rel) ∈ fails → (qn.isDirB = false ∨ kep = false) →
      ∃ e' qn', (deleteAtAux false fails kep p e rel).1 = some e' ∧
        e'.findAt rel = some qn' ∧ qn'.name = qn.name ∧ qn'.stats = qn.stats := by
  intro rel
  induction rel with
  | nil => intro _ _ _ _ _ _ hne _ _; exact absurd rfl hne
  | cons n rel' ih =>
      intro fails kep p e qn hq _ hmem hcond
      cases e with
      | node en est cs =>
      cases rel' with
      | nil =>
          cases hc : cs.findC n with
          | none =>
              rw [Entry.findAt_cons_none _ n [] (by simpa using hc)] at hq
              cases hq
          | some c =>
              have hqc : qn = c := by
                rw [Entry.findAt_cons _ n [] c (by simpa using hc)] at hq
                simpa [Entry.findAt] using hq.symm
              subst hqc
              have hstay : (deleteNode false fails kep (p ++ [n]) qn).1 ≠ none := by
                intro hnone
                rw [deleteNode_fst_none_iff] at hnone
                rcases hnone with h | ⟨hdir, hkep⟩ | h
                · cases h
                · rcases hcond with hcf | hkf
                  · rw [hcf] at hdir; cases hdir
                  · rw [hkf] at hkep; cases hkep
                · exact h (by simpa using hmem)
              obtain ⟨c', hc'⟩ : ∃ c',
                  (deleteNode false fails kep (p ++ [n]) qn).1 = some c' :=
                Option.ne_none_iff_exists'.mp hstay
              have hmeta := deleteNode_some_meta hc'
              have hc'n : c'.name = n := by rw [hmeta.1, Forest.findC_name hc]
              refine ⟨.node en est (cs.replaceC n c'), c', ?_, ?_, hmeta.1, hmeta.2⟩
              · simp only [deleteAtAux, hc]
                rw [unwindStep_fst_some false fails kep p en est cs n hc']
              · exact Entry.findAt_cons _ n [] c' (by
                  simp only [Entry.children]
                  exact Forest.findC_replaceC_eq c' hc hc'n)
      | cons n2 rel2 =>
          cases hc : cs.findC n with
          | none =>
              rw [Entry.findAt_cons_none _ n (n2 :: rel2) (by simpa using hc)] at hq
              cases hq
          | some c =>
              have hq' : c.findAt (n2 :: rel2) = some qn := by
                rw [Entry.findAt_cons _ n (n2 :: rel2) c (by simpa using hc)] at hq
                exact hq
              have hmem' : ((p ++ [n]) ++ (n2 :: rel2)) ∈ fails := by
                simpa using hmem
              obtain ⟨c'', qn', hres, hfind, hname, hstats⟩ :=
                ih fails kep (p ++ [n]) c qn hq' (by simp) hmem' hcond
              have hc''n : c''.name = n := by
                rw [(deleteAtAux_some_meta (Prod.ext hres rfl)).1,
                  Forest.findC_name hc]
              refine ⟨.node en est (cs.replaceC n c''), qn', ?_, ?_, hname, hstats⟩
              · simp only [deleteAtAux, hc]
                rw [unwindStep_fst_some false fails kep p en est cs n hres]
              · rw [Entry.findAt_cons _ n (n2 :: rel2) c'' (by
                    simp only [Entry.children]
                    exact Forest.findC_replaceC_eq c'' hc hc''n)]
                exact hfind

/-- Full characterization of the empty-parent cascade for a failure-free
`delete` with `keepEmptyParent = false`: the call consumes the node `e`
itself iff every node along the target path (including `e`) has exactly one
child; and in the surviving tree, the prefix `rel.take i` of the target path
has been removed iff every node from depth `i` down to the target's parent
had exactly one child. -/
theorem deleteAtAux_cascade_char :
    ∀ (rel : List String) (dry : Bool) (p : List String) (e : Entry),
      e.wfB = true → (e.findAt rel).isSome → rel ≠ [] →
      ((deleteAtAux dry [] false p e rel).1 = none ↔
        (∀ j, j < rel.length → e.childCountAt (rel.take j) = 1)) ∧
      (∀ e', (deleteAtAux dry [] false p e rel).1 = some e' →
        ∀ i, 1 ≤ i → i ≤ rel.length →
          (e'.findAt (rel.take i) = none ↔
            (∀ j, i ≤ j → j < rel.length → e.childCountAt (rel.take j) = 1))) := by
  intro rel
  induction rel with
  | nil => intro _ _ _ _ _ hne; exact absurd rfl hne
  | cons n rel' ih =>
      intro dry p e hwf hsome _
      cases e with
      | node en est cs =>
      have hnd : cs.nodupNames = true := (Entry.wfB_children hwf).1
      have hwff : cs.wfF = true := (Entry.wfB_children hwf).2
      cases rel' with
      | nil =>
          cases hc : cs.findC n with
          | none =>
              rw [Entry.findAt_cons_none _ n [] (by simpa using hc)] at hsome
              cases hsome
          | some c =>
              simp only [deleteAtAux, hc]
              have hdel : (deleteNode dry [] false (p ++ [n]) c).1 = none :=
                deleteNode_none_nofail ..
              have hfst := unwindStep_fst_none dry false p en est cs n hdel
              constructor
              · rw [hfst]
                constructor
                · intro hn
                  split at hn
                  · rename_i hcas
                    simp only [Bool.not_false, Bool.true_and] at hcas
                    have hnil : cs.removeC n = .nil := by
                      cases hrem : cs.removeC n with
                      | nil => rfl
                      | cons a b => rw [hrem] at hcas; simp [Forest.isNil] at hcas
                    intro j hj
                    have hj0 : j = 0 := by
                      simp only [List.length_cons, List.length_nil] at hj; omega
                    subst hj0
                    rw [List.take_zero, Entry.childCountAt_nil]
                    simp only [Entry.children]
                    exact (Forest.removeC_nil_iff hnd hc).1 hnil
                  · cases hn
                · intro hcnt
                  have h1 := hcnt 0 (by simp)
                  rw [List.take_zero, Entry.childCountAt_nil] at h1
                  simp only [Entry.children] at h1
                  have hnil : cs.removeC n = .nil := (Forest.removeC_nil_iff hnd hc).2 h1
                  rw [if_pos (by rw [hnil]; simp [Forest.isNil])]
              · intro e' he i hi1 hi2
                have hile : i = 1 := by
                  simp only [List.length_cons, List.length_nil] at hi2
                  omega
                subst hile
                rw [hfst] at he
                split at he
                · cases he
                · cases he
                  constructor
                  · intro _ j hj1 hj2
                    simp only [List.length_cons, List.length_nil] at hj2
                    omega
                  · intro _
                    refine Entry.findAt_cons_none _ n [] ?_
                    simp only [Entry.children]
                    exact Forest.findC_removeC_eq
      | cons n2 rel2 =>
          cases hc : cs.findC n with
          | none =>
              rw [Entry.findAt_cons_none _ n (n2 :: rel2) (by simpa using hc)] at hsome
              cases hsome
          | some c =>
              simp only [deleteAtAux, hc]
              have hcn : c.name = n := Forest.findC_name hc
              have hcwf : c.wfB = true := Forest.wfF_findC hwff hc
              have hcsome : (c.findAt (n2 :: rel2)).isSome := by
                rw [Entry.findAt_cons _ n (n2 :: rel2) c (by simpa using hc)] at hsome
                exact hsome
              have hih := ih dry (p ++ [n]) c hcwf hcsome (by simp)
              -- translation between the child's counts and this node's counts
              have htr : ∀ j, (Entry.node en est cs).childCountAt ((n :: n2 :: rel2).take (j + 1)) =
                  c.childCountAt ((n2 :: rel2).take j) := by
                intro j
                simp only [List.take_succ_cons]
                exact Entry.childCountAt_cons _ (by simpa using hc)
              have hcnt0 : (Entry.node en est cs).childCountAt ((n :: n2 :: rel2).take 0) =
                  cs.length := by
                rw [List.take_zero, Entry.childCountAt_nil]
                rfl
              cases hres : (deleteAtAux dry [] false (p ++ [n]) c (n2 :: rel2)).1 with
              | some c'' =>
                  have hc''n : c''.name = n := by
                    rw [(deleteAtAux_some_meta (Prod.ext hres rfl)).1, hcn]
                  rw [unwindStep_fst_some dry [] false p en est cs n hres]
                  constructor
                  · constructor
                    · intro hcontra; cases hcontra
                    · intro hcnt
                      exfalso
                      have : (deleteAtAux dry [] false (p ++ [n]) c (n2 :: rel2)).1 = none := by
                        rw [hih.1]
                        intro j hj
                        rw [← htr j]
                        exact hcnt (j + 1) (by simpa using hj)
                      rw [hres] at this
                      cases this
                  · intro e' he i hi1 hi2
                    cases he
                    rcases Nat.lt_or_ge i 2 with hilt | hige
                    · have : i = 1 := by omega
                      subst this
                      constructor
                      · intro hnone
                        exfalso
                        rw [List.take_succ_cons, List.take_zero,
                          Entry.findAt_cons _ n [] c'' (by
                            simp only [Entry.children]
                            exact Forest.findC_replaceC_eq c'' hc hc''n)] at hnone
                        simp [Entry.findAt] at hnone
                      · intro hcnt
                        exfalso
                        have : (deleteAtAux dry [] false (p ++ [n]) c (n2 :: rel2)).1 = none := by
                          rw [hih.1]
                          intro j hj
                          rw [← htr j]
                          exact hcnt (j + 1) (by omega) (by simpa using hj)
                        rw [hres] at this
                        cases this
                    · obtain ⟨i', rfl⟩ : ∃ i', i = i' + 1 := ⟨i - 1, by omega⟩
                      rw [List.take_succ_cons,
                        Entry.findAt_cons _ n ((n2 :: rel2).take i') c'' (by
                          simp only [Entry.children]
                          exact Forest.findC_replaceC_eq c'' hc hc''n)]
                      have := hih.2 c'' hres i' (by omega) (by
                        simp only [List.length_cons] at hi2 ⊢; omega)
                      rw [this]
                      constructor
                      · intro hcnt j hj1 hj2
                        obtain ⟨j', rfl⟩ : ∃ j', j = j' + 1 := ⟨j - 1, by omega⟩
                        rw [htr j']
                        exact hcnt j' (by omega) (by
                          simp only [List.length_cons] at hj2 ⊢; omega)
                      · intro hcnt j' hj1 hj2
                        rw [← htr j']
                        exact hcnt (j' + 1) (by omega) (by
                          simp only [List.length_cons] at hj2 ⊢; omega)
              | none =>
                  have hchain : ∀ j, j < (n2 :: rel2).length →
                      c.childCountAt ((n2 :: rel2).take j) = 1 := (hih.1).1 hres
                  have hres' : (deleteAtAux dry [] false (p ++ [n]) c
                      (n2 :: rel2)).1 = none := hres
                  have hfst := unwindStep_fst_none dry false p en est cs n hres'
                  rw [hfst]
                  constructor
                  · constructor
                    · intro hn
                      split at hn
                      · rename_i hcas
                        simp only [Bool.not_false, Bool.true_and] at hcas
                        have hnil : cs.removeC n = .nil := by
                          cases hrem : cs.removeC n with
                          | nil => rfl
                          | cons a b => rw [hrem] at hcas; simp [Forest.isNil] at hcas
                        intro j hj
                        cases j with
                        | zero =>
                            rw [hcnt0]
                            exact (Forest.removeC_nil_iff hnd hc).1 hnil
                        | succ j' =>
                            rw [htr j']
                            exact hchain j' (by
                              simp only [List.length_cons] at hj ⊢; omega)
                      · cases hn
                    · intro hcnt
                      have h1 := hcnt 0 (by simp)
                      rw [hcnt0] at h1
                      have hnil : cs.removeC n = .nil := by
                        apply (Forest.removeC_nil_iff hnd hc).2
                        exact h1
                      rw [if_pos (by rw [hnil]; simp [Forest.isNil])]
                  · intro e' he i hi1 hi2
                    split at he
                    · cases he
                    · cases he
                      rename_i hncas
                      simp only [Bool.not_false, Bool.true_and] at hncas
                      have hnonnil : cs.removeC n ≠ .nil := by
                        intro hnil
                        rw [hnil] at hncas
                        simp [Forest.isNil] at hncas
                      have hfnone : ∀ (tl : List String),
                          (Entry.node en est (cs.removeC n)).findAt (n :: tl) = none := by
                        intro tl
                        refine Entry.findAt_cons_none _ n tl ?_
                        simp only [Entry.children]
                        exact Forest.findC_removeC_eq
                      obtain ⟨i', rfl⟩ : ∃ i', i = i' + 1 := ⟨i - 1, by omega⟩
                      rw [List.take_succ_cons, hfnone ((n2 :: rel2).take i')]
                      constructor
                      · intro _ j hj1 hj2
                        obtain ⟨j', rfl⟩ : ∃ j', j = j' + 1 := ⟨j - 1, by omega⟩
                        rw [htr j']
                        exact hchain j' (by
                          simp only [List.length_cons] at hj2 ⊢; omega)
                      · intro _; rfl

/-- Mutual structural induction over entries and forests. -/
theorem entryForestInd {m1 : Entry → Prop} {m2 : Forest → Prop}
    (hnode : ∀ n st cs, m2 cs → m1 (.node n st cs))
    (hnil : m2 .nil)
    (hcons : ∀ c rest, m1 c → m2 rest → m2 (.cons c rest)) :
    (∀ e, m1 e) ∧ (∀ f, m2 f) :=
  ⟨fun e => entryInd e, fun f => forestInd f⟩
where
  entryInd : ∀ e, m1 e
    | .node n st cs => hnode n st cs (forestInd cs)
  forestInd : ∀ f, m2 f
    | .nil => hnil
    | .cons c rest => hcons c rest (entryInd c) (forestInd rest)

/-- `delete` preserves well-formedness: every surviving node still has its
stats, unique child names, and childless files. -/
theorem deleteNode_deleteChildren_wf :
    (∀ e : Entry, ∀ (dry : Bool) (fails : List (List String)) (kep : Bool)
      (p : List String) (e' : Entry), e.wfB = true →
      (deleteNode dry fails kep p e).1 = some e' → e'.wfB = true) ∧
    (∀ f : Forest, ∀ (dry : Bool) (fails : List (List String)) (p : List String),
      f.wfF = true → f.nodupNames = true →
      (deleteChildren dry fails p f).1.wfF = true ∧
      (deleteChildren dry fails p f).1.nodupNames = true ∧
      (∀ n, (deleteChildren dry fails p f).1.containsName n = true →
        f.containsName n = true)) := by
  apply entryForestInd
  · -- node case
    intro n st cs ihf dry fails kep p e' hwf he
    obtain ⟨s, hs⟩ := Entry.wfB_stats hwf
    simp only [Entry.stats] at hs
    subst hs
    simp only [Entry.wfB, Bool.and_eq_true, Bool.or_eq_true] at hwf
    simp only [deleteNode] at he
    split at he
    · rename_i hdir
      simp only [Entry.isDirB, Entry.stats] at hdir
      have ihcs := ihf dry fails p hwf.2 hwf.1.2
      split at he
      · split at he
        · cases he
        · split at he
          · cases he
            simp only [Entry.wfB, Bool.and_eq_true, Bool.or_eq_true]
            exact ⟨⟨Or.inl hdir, ihcs.2.1⟩, ihcs.1⟩
          · cases he
      · cases he
    · split at he
      · cases he
      · split at he
        · cases he
          simp only [Entry.wfB, Bool.and_eq_true, Bool.or_eq_true] at hwf ⊢
          exact hwf
        · cases he
  · -- nil case
    intro dry fails p _ _
    exact ⟨rfl, rfl, fun n h => h⟩
  · -- cons case
    intro c rest ihc ihr dry fails p hwf hnd
    simp only [Forest.wfF, Bool.and_eq_true] at hwf
    simp only [Forest.nodupNames, Bool.and_eq_true, Bool.not_eq_true'] at hnd
    have ihrest := ihr dry fails p hwf.2 hnd.2
    simp only [deleteChildren]
    cases hrc : (deleteNode dry fails true (p ++ [c.name]) c).1 with
    | none =>
        simp only
        exact ⟨ihrest.1, ihrest.2.1, fun n h => by
          simp only [Forest.containsName, Bool.or_eq_true]
          exact Or.inr (ihrest.2.2 n h)⟩
    | some x =>
        have hxwf := ihc dry fails true (p ++ [c.name]) x hwf.1 hrc
        have hxn : x.name = c.name := (deleteNode_some_meta hrc).1
        simp only
        refine ⟨?_, ?_, ?_⟩
        · simp only [Forest.wfF, Bool.and_eq_true]
          exact ⟨hxwf, ihrest.1⟩
        · simp only [Forest.nodupNames, Bool.and_eq_true, Bool.not_eq_true']
          refine ⟨?_, ihrest.2.1⟩
          rw [hxn]
          cases hcon : (deleteChildren dry fails p rest).1.containsName c.name with
          | false => rfl
          | true => exact absurd (ihrest.2.2 c.name hcon) (by rw [hnd.1]; simp)
        · intro m h
          simp only [Forest.containsName, Bool.or_eq_true] at h ⊢
          rcases h with h | h
          · left; rw [← hxn]; exact h
          · right; exact ihrest.2.2 m h

theorem deleteNode_wf {dry : Bool} {fails : List (List String)} {kep : Bool}
    {p : List String} {e e' : Entry} (hwf : e.wfB = true)
    (he : (deleteNode dry fails kep p e).1 = some e') : e'.wfB = true :=
  deleteNode_deleteChildren_wf.1 e dry fails kep p e' hwf he

theorem Forest.removeC_nodup : ∀ {f : Forest} {n : String},
    f.nodupNames = true → (f.removeC n).nodupNames = true := by
  intro f
  induction f using Forest.ind with
  | nil => intro n _; rfl
  | cons a b ihb =>
      intro n hnd
      simp only [Forest.nodupNames, Bool.and_eq_true, Bool.not_eq_true'] at hnd
      simp only [Forest.removeC]
      split
      · exact ihb hnd.2
      · simp only [Forest.nodupNames, Bool.and_eq_true, Bool.not_eq_true']
        refine ⟨?_, ihb hnd.2⟩
        cases hcon : (b.removeC n).containsName a.name with
        | false => rfl
        | true =>
            exfalso
            have : b.containsName a.name = true := by
              clear ihb hnd
              induction b using Forest.ind with
              | nil => simp [Forest.removeC, Forest.containsName] at hcon
              | cons u v ihv =>
                  simp only [Forest.removeC] at hcon
                  simp only [Forest.containsName, Bool.or_eq_true] at hcon ⊢
                  split at hcon
                  · exact Or.inr (ihv hcon)
                  · simp only [Forest.containsName, Bool.or_eq_true] at hcon
                    rcases hcon with h | h
                    · exact Or.inl h
                    · exact Or.inr (ihv h)
            rw [hnd.1] at this
            cases this

theorem Forest.removeC_wfF : ∀ {f : Forest} {n : String},
    f.wfF = true → (f.removeC n).wfF = true := by
  intro f
  induction f using Forest.ind with
  | nil => intro n _; rfl
  | cons a b ihb =>
      intro n hwf
      simp only [Forest.wfF, Bool.and_eq_true] at hwf
      simp only [Forest.removeC]
      split
      · exact ihb hwf.2
      · simp only [Forest.wfF, Bool.and_eq_true]
        exact ⟨hwf.1, ihb hwf.2⟩

theorem Forest.replaceC_containsName {c' : Entry} {n : String}
    (hc'n : c'.name = n) : ∀ (f : Forest) (m : String),
    (f.replaceC n c').containsName m = f.containsName m := by
  intro f
  induction f using Forest.ind with
  | nil => intro m; rfl
  | cons u v ihv =>
      intro m
      simp only [Forest.replaceC, Forest.containsName, ihv]
      split
      · rename_i hu
        rw [hc'n, hu]
      · rfl

theorem Forest.replaceC_nodup {c' : Entry} {n : String} (hc'n : c'.name = n) :
    ∀ {f : Forest}, f.nodupNames = true → (f.replaceC n c').nodupNames = true := by
  intro f
  induction f using Forest.ind with
  | nil => intro _; rfl
  | cons a b ihb =>
      intro hnd
      simp only [Forest.nodupNames, Bool.and_eq_true, Bool.not_eq_true'] at hnd
      simp only [Forest.replaceC, Forest.nodupNames, Bool.and_eq_true,
        Bool.not_eq_true']
      refine ⟨?_, ihb hnd.2⟩
      rw [Forest.replaceC_containsName hc'n]
      split
      · rename_i ha
        rw [hc'n, ← ha]
        exact hnd.1
      · exact hnd.1

theorem Forest.replaceC_wfF {c' : Entry} {n : String} (hc'wf : c'.wfB = true) :
    ∀ {f : Forest}, f.wfF = true → (f.replaceC n c').wfF = true := by
  intro f
  induction f using Forest.ind with
  | nil => intro _; rfl
  | cons a b ihb =>
      intro hwf
      simp only [Forest.wfF, Bool.and_eq_true] at hwf
      simp only [Forest.replaceC, Forest.wfF, Bool.and_eq_true]
      refine ⟨?_, ihb hwf.2⟩
      split
      · exact hc'wf
      · exact hwf.1

theorem Forest.removeC_isNil_mono {f : Forest} {n : String} :
    f.isNil = true → (f.removeC n).isNil = true := by
  cases f with
  | nil => intro _; rfl
  | cons a b => intro h; simp [Forest.isNil] at h

/-- Rebuilding a well-formed directory node with a pruned children map keeps
it well-formed. -/
theorem node_wf_removeC {en : String} {s : Stats} {cs : Forest} {n : String}
    (hwf : (Entry.node en (some s) cs).wfB = true) :
    (Entry.node en (some s) (cs.removeC n)).wfB = true := by
  simp only [Entry.wfB, Bool.and_eq_true, Bool.or_eq_true] at hwf ⊢
  refine ⟨⟨?_, Forest.removeC_nodup hwf.1.2⟩, Forest.removeC_wfF hwf.2⟩
  rcases hwf.1.1 with h | h
  · exact Or.inl h
  · exact Or.inr (Forest.removeC_isNil_mono h)

theorem node_wf_replaceC {en : String} {s : Stats} {cs : Forest} {n : String}
    {c c' : Entry} (hwf : (Entry.node en (some s) cs).wfB = true)
    (hc : cs.findC n = some c) (hc'wf : c'.wfB = true) (hc'n : c'.name = n) :
    (Entry.node en (some s) (cs.replaceC n c')).wfB = true := by
  simp only [Entry.wfB, Bool.and_eq_true, Bool.or_eq_true] at hwf ⊢
  refine ⟨⟨?_, Forest.replaceC_nodup hc'n hwf.1.2⟩, Forest.replaceC_wfF hc'wf hwf.2⟩
  rcases hwf.1.1 with h | h
  · exact Or.inl h
  · refine Or.inr ?_
    cases cs with
    | nil => rfl
    | cons a b => simp [Forest.isNil] at h

/-- A `delete` call leaves a well-formed tree behind. -/
theorem deleteAtAux_wf :
    ∀ (rel : List String) (dry : Bool) (fails : List (List String)) (kep : Bool)
      (p : List String) (e e' : Entry), e.wfB = true →
      (deleteAtAux dry fails kep p e rel).1 = some e' → e'.wfB = true := by
  intro rel
  induction rel with
  | nil =>
      intro dry fails kep p e e' hwf he
      cases he; exact hwf
  | cons n rel' ih =>
      intro dry fails kep p e e' hwf he
      cases e with
      | node en est cs =>
      obtain ⟨s, hs⟩ := Entry.wfB_stats hwf
      simp only [Entry.stats] at hs
      subst hs
      have hwff : cs.wfF = true := (Entry.wfB_children hwf).2
      cases rel' with
      | nil =>
          cases hc : cs.findC n with
          | none =>
              simp only [deleteAtAux, hc] at he
              cases he; exact hwf
          | some c =>
              simp only [deleteAtAux, hc] at he
              cases hres : (deleteNode dry fails kep (p ++ [n]) c).1 with
              | some c' =>
                  rw [unwindStep_fst_some dry fails kep p en (some s) cs n hres] at he
                  cases he
                  exact node_wf_replaceC hwf hc
                    (deleteNode_wf (Forest.wfF_findC hwff hc) hres)
                    (by rw [(deleteNode_some_meta hres).1, Forest.findC_name hc])
              | none =>
                  have hout := unwindStep_none_out dry fails kep p en (some s) cs n hres
                  have he' := hout.1 e' he
                  subst he'
                  exact node_wf_removeC hwf
      | cons n2 rel2 =>
          cases hc : cs.findC n with
          | none =>
              simp only [deleteAtAux, hc] at he
              cases he; exact hwf
          | some c =>
              simp only [deleteAtAux, hc] at he
              cases hres : (deleteAtAux dry fails kep (p ++ [n]) c (n2 :: rel2)).1 with
              | some c'' =>
                  rw [unwindStep_fst_some dry fails kep p en (some s) cs n hres] at he
                  cases he
                  exact node_wf_replaceC hwf hc
                    (ih dry fails kep (p ++ [n]) c c''
                      (Forest.wfF_findC hwff hc) hres)
                    (by rw [(deleteAtAux_some_meta (Prod.ext hres rfl)).1,
                        Forest.findC_name hc])
              | none =>
                  have hout := unwindStep_none_out dry fails kep p en (some s) cs n hres
                  have he' := hout.1 e' he
                  subst he'
                  exact node_wf_removeC hwf

/-- `deleteAt` preserves well-formedness of the root. -/
theorem deleteAt_wf {dry : Bool} {fails : List (List String)} {kep : Bool}
    {t : Entry} {rel : List String} (hwf : t.wfB = true) :
    (deleteAt dry fails kep t rel).1.wfB = true := by
  simp only [deleteAt]
  cases hres : deleteAtAux dry fails kep [] t rel with
  | mk o log =>
      cases o with
      | some t' =>
          exact deleteAtAux_wf rel dry fails kep [] t t' hwf
            (by rw [hres])
      | none =>
          obtain ⟨s, hs⟩ := Entry.wfB_stats hwf
          simp only [hs]
          simp [Entry.wfB, Forest.isNil, Forest.nodupNames, Forest.wfF]

/-- Deleting a path that is no longer in the tree is a no-op on the tree (in
the source the policies only ever call `delete` through still-attached node
references, see the pre-order argument; the model makes the absent case an
explicit identity). -/
theorem deleteAtAux_absent :
    ∀ (rel : List String) (dry : Bool) (fails : List (List String)) (kep : Bool)
      (p : List String) (e : Entry), e.wfB = true → e.findAt rel = none →
      (deleteAtAux dry fails kep p e rel).1 = some e := by
  intro rel
  induction rel with
  | nil =>
      intro dry fails kep p e _ habs
      simp [Entry.findAt] at habs
  | cons n rel' ih =>
      intro dry fails kep p e hwf habs
      cases e with
      | node en est cs =>
      have hnd : cs.nodupNames = true := (Entry.wfB_children hwf).1
      have hwff : cs.wfF = true := (Entry.wfB_children hwf).2
      cases hc : cs.findC n with
      | none =>
          cases rel' with
          | nil => simp only [deleteAtAux, hc]
          | cons n2 rel2 => simp only [deleteAtAux, hc]
      | some c =>
          rw [Entry.findAt_cons _ n rel' c (by simpa using hc)] at habs
          cases rel' with
          | nil => simp [Entry.findAt] at habs
          | cons n2 rel2 =>
              simp only [deleteAtAux, hc]
              have hres := ih dry fails kep (p ++ [n]) c
                (Forest.wfF_findC hwff hc) habs
              rw [unwindStep_fst_some dry fails kep p en est cs n hres]
              rw [Forest.replaceC_self hnd hc]

/-! ### Lemmas about the captured flat list -/

/-- Every exception escaping `ExpireEntry.list()` is the `TypeError` from the
`isDir` getter on a stats-less node (traversal performs no other throwing
operation). -/
theorem listGo_error_typeError :
    (∀ e : Entry, ∀ (bs : String) (bp : List String) (err : Err),
      e.listSub bs bp = .error err → err = .typeError) ∧
    (∀ f : Forest, ∀ (bs : String) (bp : List String) (err : Err),
      f.listGo bs bp = .error err → err = .typeError) := by
  apply entryForestInd
  · intro n st cs ihf bs bp err he
    exact ihf bs bp err he
  · intro bs bp err he
    cases he
  · intro c rest ihc ihr bs bp err he
    simp only [Forest.listGo] at he
    cases hst : c.stats with
    | none => rw [hst] at he; cases he; rfl
    | some st =>
        rw [hst] at he
        simp only at he
        split at he
        · cases hsub : c.listSub (bs ++ "/" ++ c.name) (bp ++ [c.name]) with
          | error e2 =>
              rw [hsub] at he; cases he
              exact ihc _ _ _ hsub
          | ok sub =>
              rw [hsub] at he
              cases hrs : rest.listGo bs bp with
              | error e2 => rw [hrs] at he; cases he; exact ihr _ _ _ hrs
              | ok rs => rw [hrs] at he; cases he
        · cases hrs : rest.listGo bs bp with
          | error e2 => rw [hrs] at he; cases he; exact ihr _ _ _ hrs
          | ok rs => rw [hrs] at he; cases he

/-- Chained lookup of a nonempty relative path inside a children map. -/
def Forest.findPath (f : Forest) : List String → Option Entry
  | [] => none
  | m :: rel' => (f.findC m).bind (fun c => c.findAt rel')

theorem Entry.findAt_eq_findPath (e : Entry) (m : String) (rel' : List String) :
    e.findAt (m :: rel') = e.children.findPath (m :: rel') := by
  cases e with
  | node en est cs =>
      simp only [Entry.findAt, Entry.children, Forest.findPath]
      cases cs.findC m with
      | none => rfl
      | some c => rfl

/-- The absolute path string `path.join` builds while descending. -/
def renderRel (bs : String) : List String → String
  | [] => bs
  | n :: rest => renderRel (bs ++ "/" ++ n) rest

/-- Facts about every candidate captured by `ExpireEntry.list()` on a
well-formed tree: its path points at a node of the tree carrying exactly the
captured stats, and its path string is the rendering of its segment path. -/
theorem listGo_facts :
    (∀ e : Entry, ∀ (bs : String) (bp : List String) (l : List Cand),
      e.wfB = true → e.listSub bs bp = .ok l →
      ∀ cand ∈ l, ∃ (suf : List String) (tgt : Entry), suf ≠ [] ∧
        cand.path = bp ++ suf ∧ cand.pathStr = renderRel bs suf ∧
        e.children.findPath suf = some tgt ∧ tgt.stats = some cand.stats) ∧
    (∀ f : Forest, ∀ (bs : String) (bp : List String) (l : List Cand),
      f.wfF = true → f.nodupNames = true → f.listGo bs bp = .ok l →
      ∀ cand ∈ l, ∃ (suf : List String) (tgt : Entry), suf ≠ [] ∧
        cand.path = bp ++ suf ∧ cand.pathStr = renderRel bs suf ∧
        f.findPath suf = some tgt ∧ tgt.stats = some cand.stats) := by
  apply entryForestInd
  · intro n st cs ihf bs bp l hwf hok cand hcand
    have h := ihf bs bp l (Entry.wfB_children hwf).2 (Entry.wfB_children hwf).1
      hok cand hcand
    simpa [Entry.children] using h
  · intro bs bp l _ _ hok cand hcand
    cases hok
    cases hcand
  · intro c rest ihc ihr bs bp l hwf hnd hok cand hcand
    simp only [Forest.wfF, Bool.and_eq_true] at hwf
    simp only [Forest.nodupNames, Bool.and_eq_true, Bool.not_eq_true'] at hnd
    simp only [Forest.listGo] at hok
    cases hst : c.stats with
    | none => rw [hst] at hok; cases hok
    | some st =>
        rw [hst] at hok
        simp only at hok
        have hcself : ∀ (h : cand = ⟨bp ++ [c.name], bs ++ "/" ++ c.name, st⟩),
            ∃ (suf : List String) (tgt : Entry), suf ≠ [] ∧
              cand.path = bp ++ suf ∧ cand.pathStr = renderRel bs suf ∧
              (Forest.cons c rest).findPath suf = some tgt ∧
              tgt.stats = some cand.stats := by
          intro h
          subst h
          refine ⟨[c.name], c, by simp, rfl, rfl, ?_, hst⟩
          simp [Forest.findPath, Forest.findC, Entry.findAt]
        have hrest : ∀ rs, rest.listGo bs bp = .ok rs → cand ∈ rs →
            ∃ (suf : List String) (tgt : Entry), suf ≠ [] ∧
              cand.path = bp ++ suf ∧ cand.pathStr = renderRel bs suf ∧
              (Forest.cons c rest).findPath suf = some tgt ∧
              tgt.stats = some cand.stats := by
          intro rs hrs hmem
          obtain ⟨suf, tgt, hne, hpath, hstr, hfind, hstats⟩ :=
            ihr bs bp rs hwf.2 hnd.2 hrs cand hmem
          refine ⟨suf, tgt, hne, hpath, hstr, ?_, hstats⟩
          cases suf with
          | nil => exact absurd rfl hne
          | cons m rel' =>
              simp only [Forest.findPath] at hfind ⊢
              cases hfc : rest.findC m with
              | none => rw [hfc] at hfind; cases hfind
              | some elem =>
                  have hmne : ¬c.name = m := by
                    intro heq
                    have := Forest.containsName_of_findC hfc
                    rw [← heq] at this
                    rw [hnd.1] at this
                    cases this
                  simp only [Forest.findC, if_neg hmne]
                  rw [hfc] at hfind ⊢
                  exact hfind
        split at hok
        · -- directory child: candidate, then its subtree, then siblings
          rename_i hdir
          cases hsub : c.listSub (bs ++ "/" ++ c.name) (bp ++ [c.name]) with
          | error e2 => rw [hsub] at hok; cases hok
          | ok sub =>
              rw [hsub] at hok
              cases hrs : rest.listGo bs bp with
              | error e2 => rw [hrs] at hok; cases hok
              | ok rs =>
                  rw [hrs] at hok
                  cases hok
                  rcases List.mem_cons.mp hcand with hc1 | hc2
                  · exact hcself hc1
                  · rcases List.mem_append.mp hc2 with hmem | hmem
                    · obtain ⟨suf, tgt, hne, hpath, hstr, hfind, hstats⟩ :=
                        ihc (bs ++ "/" ++ c.name) (bp ++ [c.name]) sub
                          hwf.1 hsub cand hmem
                      refine ⟨c.name :: suf, tgt, by simp, ?_, ?_, ?_, hstats⟩
                      · rw [hpath]; simp
                      · rw [hstr]; rfl
                      · cases suf with
                        | nil => exact absurd rfl hne
                        | cons m rel' =>
                            have hstep : (Forest.cons c rest).findPath
                                (c.name :: m :: rel') = c.findAt (m :: rel') := by
                              simp [Forest.findPath, Forest.findC]
                            rw [hstep, Entry.findAt_eq_findPath]
                            exact hfind
                    · exact hrest rs hrs hmem
        · -- file child: candidate, then siblings
          cases hrs : rest.listGo bs bp with
          | error e2 => rw [hrs] at hok; cases hok
          | ok rs =>
              rw [hrs] at hok
              cases hok
              rcases List.mem_cons.mp hcand with hc1 | hc2
              · exact hcself hc1
              · exact hrest rs hrs hc2

theorem Entry.listE_error {t : Entry} {rootStr : String} {err : Err}
    (h : t.listE rootStr = .error err) : err = .typeError :=
  listGo_error_typeError.2 t.children rootStr [] err h

/-- Facts about every candidate of a root-level `entry.list()` capture. -/
theorem Entry.listE_facts {t : Entry} {rootStr : String} {l : List Cand}
    (hwf : t.wfB = true) (hok : t.listE rootStr = .ok l) :
    ∀ cand ∈ l, cand.path ≠ [] ∧ cand.pathStr = renderRel rootStr cand.path ∧
      ∃ tgt, t.findAt cand.path = some tgt ∧ tgt.stats = some cand.stats := by
  intro cand hcand
  obtain ⟨suf, tgt, hne, hpath, hstr, hfind, hstats⟩ :=
    listGo_facts.2 t.children rootStr [] l (Entry.wfB_children hwf).2
      (Entry.wfB_children hwf).1 hok cand hcand
  simp only [List.nil_append] at hpath
  subst hpath
  refine ⟨hne, hstr, tgt, ?_, hstats⟩
  obtain ⟨m, rel', hmr⟩ : ∃ m rel', cand.path = m :: rel' := by
    cases hcp : cand.path with
    | nil => exact absurd hcp hne
    | cons a b => exact ⟨a, b, rfl⟩
  rw [hmr] at hfind ⊢
  rw [Entry.findAt_eq_findPath]
  exact hfind

theorem isPref_iff {a b : List String} :
    isPref a b = true ↔ ∃ s, b = a ++ s := by
  induction a generalizing b with
  | nil => simp [isPref]
  | cons x xs ih =>
      cases b with
      | nil =>
          simp only [isPref, List.cons_append]
          constructor
          · intro h; cases h
          · intro ⟨s, hs⟩; cases hs
      | cons y ys =>
          simp only [isPref, Bool.and_eq_true, decide_eq_true_eq, ih,
            List.cons_append]
          constructor
          · intro ⟨h1, s, h2⟩
            exact ⟨s, by rw [h1, h2]⟩
          · intro ⟨s, hs⟩
            cases hs
            exact ⟨rfl, s, rfl⟩

theorem Entry.isDirB_of_stats {e : Entry} {st : Stats} (h : e.stats = some st) :
    e.isDirB = st.isDirectory := by
  simp [Entry.isDirB, h]

/-- In a well-formed tree a file's path cannot be a strict prefix of any
present path (files have no children). -/
theorem file_prefix_eq {t : Entry} {a b : List String} {na : Entry}
    (hwf : t.wfB = true) (ha : t.findAt a = some na) (hfile : na.isDirB = false)
    (hpref : isPref a b = true) (hb : t.findAt b ≠ none) : a = b := by
  obtain ⟨s, rfl⟩ := isPref_iff.mp hpref
  cases s with
  | nil => simp
  | cons x xs =>
      exfalso
      apply hb
      rw [Entry.findAt_append, ha]
      show na.findAt (x :: xs) = none
      have hnawf : na.wfB = true := Entry.wfB_findAt a hwf ha
      have : na.children = .nil := Entry.wfB_file_children hnawf hfile
      exact Entry.findAt_cons_none na x xs (by rw [this]; rfl)

/-- Wrapper form of the incomparable-path preservation. -/
theorem deleteAt_fst_incomp {dry : Bool} {fails : List (List String)}
    {kep : Bool} {u : Entry} {rel q : List String} (hwf : u.wfB = true)
    (hq : Incomp q rel) (hpres : u.findAt q ≠ none) :
    (deleteAt dry fails kep u rel).1.findAt q = u.findAt q := by
  simp only [deleteAt]
  have h := deleteAtAux_fst_incomp rel dry fails kep [] u hwf q hq
  cases hres : deleteAtAux dry fails kep [] u rel with
  | mk o log =>
      cases o with
      | some t' =>
          exact h.1 t' (by rw [hres])
      | none =>
          exact absurd (h.2 (by rw [hres])) hpres

/-- Wrapper form of the absent-target no-op. -/
theorem deleteAt_absent {dry : Bool} {fails : List (List String)} {kep : Bool}
    {u : Entry} {rel : List String} (hwf : u.wfB = true)
    (habs : u.findAt rel = none) : (deleteAt dry fails kep u rel).1 = u := by
  simp only [deleteAt]
  have h := deleteAtAux_absent rel dry fails kep [] u hwf habs
  cases hres : deleteAtAux dry fails kep [] u rel with
  | mk o log =>
      rw [hres] at h
      simp only at h
      subst h
      rfl

/-! ### Age-policy loop lemmas -/

/-- A non-directory entry of the captured list is recorded as deleted by the
`_expire` loop exactly when `_shouldDelete` holds for it (the loop decides
from the captured immutable path and stats only). -/
theorem expireLoop_file_mem (cfg : Config) (now : Int) (dry : Bool)
    (fails : List (List String)) :
    ∀ (l : List Cand) (t : Entry) (c : Cand), c.stats.isDirectory = false →
    (c ∈ (expireLoop cfg now dry fails l t).deleted ↔
      (c ∈ l ∧ shouldDelete cfg now c.pathStr c.stats = true)) := by
  intro l
  induction l with
  | nil => intro t c _; simp [expireLoop]
  | cons a l' ih =>
      intro t c hcfile
      simp only [expireLoop]
      split
      · rename_i hbr
        simp only [Bool.and_eq_true] at hbr
        have hca : c ≠ a := by
          intro h
          rw [h] at hcfile
          rw [hcfile] at hbr
          simp at hbr
        simp only [List.mem_cons]
        rw [ih _ c hcfile]
        constructor
        · intro h
          rcases h with h | h
          · exact absurd h hca
          · exact ⟨Or.inr h.1, h.2⟩
        · intro ⟨h1, h2⟩
          rcases h1 with h1 | h1
          · exact absurd h1 hca
          · exact Or.inr ⟨h1, h2⟩
      · split
        · rename_i hdir
          have hca : c ≠ a := by
            intro h
            rw [h] at hcfile
            rw [hcfile] at hdir
            cases hdir
          rw [ih _ c hcfile]
          simp only [List.mem_cons]
          constructor
          · intro ⟨h1, h2⟩
            exact ⟨Or.inr h1, h2⟩
          · intro ⟨h1, h2⟩
            rcases h1 with h1 | h1
            · exact absurd h1 hca
            · exact ⟨h1, h2⟩
        · split
          · rename_i hsd
            simp only [List.mem_cons]
            rw [ih _ c hcfile]
            constructor
            · intro h
              rcases h with h | h
              · subst h
                exact ⟨Or.inl rfl, hsd⟩
              · exact ⟨Or.inr h.1, h.2⟩
            · intro ⟨h1, h2⟩
              rcases h1 with h1 | h1
              · exact Or.inl h1
              · exact Or.inr ⟨h1, h2⟩
          · rename_i hsd
            simp only [Bool.not_eq_true] at hsd
            rw [ih _ c hcfile]
            simp only [List.mem_cons]
            constructor
            · intro ⟨h1, h2⟩
              exact ⟨Or.inr h1, h2⟩
            · intro ⟨h1, h2⟩
              rcases h1 with h1 | h1
              · subst h1
                rw [hsd] at h2
                cases h2
              · exact ⟨h1, h2⟩

/-- With `removeEmptyDirs` disabled the `_expire` loop never records a
directory. -/
theorem expireLoop_no_dirs (cfg : Config) (now : Int) (dry : Bool)
    (fails : List (List String)) (hred : cfg.removeEmptyDirs = false) :
    ∀ (l : List Cand) (t : Entry) (c : Cand),
      c ∈ (expireLoop cfg now dry fails l t).deleted →
      c.stats.isDirectory = false := by
  intro l
  induction l with
  | nil => intro t c h; simp [expireLoop] at h
  | cons a l' ih =>
      intro t c h
      simp only [expireLoop] at h
      split at h
      · rename_i hbr
        rw [hred] at hbr
        simp at hbr
      · split at h
        · exact ih _ c h
        · split at h
          · simp only [List.mem_cons] at h
            rcases h with h | h
            · subst h
              rename_i hdir _
              simpa using hdir
            · exact ih _ c h
          · exact ih _ c h

/-- A file the age policy decides to keep is still present, unchanged, in the
tree after the whole `_expire` loop (no other entry's deletion can reach it:
file deletions target incomparable paths, and empty-directory deletions
cannot touch a path that still leads to this file). -/
theorem expireLoop_preserves (cfg : Config) (now : Int) (dry : Bool)
    (t : Entry) (htwf : t.wfB = true) (c : Cand)
    (hcfile : c.stats.isDirectory = false)
    (hcfact : ∃ tgt, t.findAt c.path = some tgt ∧ tgt.stats = some c.stats)
    (hcstr : c.pathStr = renderRel cfg.folder c.path)
    (hcsd : shouldDelete cfg now c.pathStr c.stats = false) :
    ∀ (l : List Cand),
      (∀ q ∈ l, q.path ≠ [] ∧ q.pathStr = renderRel cfg.folder q.path ∧
        ∃ tgt, t.findAt q.path = some tgt ∧ tgt.stats = some q.stats) →
    ∀ (u : Entry), u.wfB = true → u.findAt c.path = t.findAt c.path →
      (expireLoop cfg now dry [] l u).tree.findAt c.path = t.findAt c.path := by
  intro l
  induction l with
  | nil =>
      intro _ u _ hu
      simpa [expireLoop] using hu
  | cons a l' ih =>
      intro hfacts u huwf hupres
      obtain ⟨tgtc, htgtc, htgtcstats⟩ := hcfact
      have hfa := hfacts a (List.mem_cons_self a l')
      have hfl' : ∀ q ∈ l', q.path ≠ [] ∧ q.pathStr = renderRel cfg.folder q.path ∧
          ∃ tgt, t.findAt q.path = some tgt ∧ tgt.stats = some q.stats :=
        fun q hq => hfacts q (List.mem_cons_of_mem a hq)
      obtain ⟨hane, hastr, tgta, htgta, htgtastats⟩ := hfa
      -- deletion-step helper: the tree after deleting candidate `a` still
      -- resolves c.path identically
      have hstep : ∀ kep, a.stats.isDirectory = false →
          shouldDelete cfg now a.pathStr a.stats = true →
          (deleteAt dry [] kep u a.path).1.findAt c.path = u.findAt c.path := by
        intro kep hafile hasd
        have hapne : a.path ≠ c.path := by
          intro h
          rw [h] at htgta
          rw [htgtc] at htgta
          cases htgta
          rw [htgtastats] at htgtcstats
          injection htgtcstats with hst
          rw [hastr, h, ← hcstr, hst] at hasd
          rw [hcsd] at hasd
          cases hasd
        have hincomp : Incomp c.path a.path := by
          constructor
          · cases hpc : isPref c.path a.path with
            | false => rfl
            | true =>
                exfalso
                apply hapne
                exact (file_prefix_eq htwf htgtc
                  (by rw [Entry.isDirB_of_stats htgtcstats]; exact hcfile)
                  hpc (by rw [htgta]; intro hcon; cases hcon)).symm
          · cases hpa : isPref a.path c.path with
            | false => rfl
            | true =>
                exfalso
                apply hapne
                exact file_prefix_eq htwf htgta
                  (by rw [Entry.isDirB_of_stats htgtastats]; exact hafile)
                  hpa (by rw [htgtc]; intro hcon; cases hcon)
        rw [deleteAt_fst_incomp huwf hincomp (by
          rw [hupres, htgtc]; intro hcon; cases hcon)]
      -- empty-directory deletion-step helper
      have hstepdir : ∀ kep, a.stats.isDirectory = true →
          hasChildrenAt u a.path = false →
          (deleteAt dry [] kep u a.path).1.findAt c.path = u.findAt c.path := by
        intro kep hadir hnoch
        cases hau : u.findAt a.path with
        | none => rw [deleteAt_absent huwf hau]
        | some anode =>
            have hnil : anode.children = .nil := by
              simp only [hasChildrenAt, hau] at hnoch
              cases hch : anode.children with
              | nil => rfl
              | cons x y => rw [hch] at hnoch; simp [Forest.isNil] at hnoch
            have hapne : a.path ≠ c.path := by
              intro h
              rw [h] at htgta
              rw [htgtc] at htgta
              cases htgta
              rw [htgtastats] at htgtcstats
              injection htgtcstats with hst
              rw [hst] at hadir
              rw [hcfile] at hadir
              cases hadir
            have hincomp : Incomp c.path a.path := by
              constructor
              · cases hpc : isPref c.path a.path with
                | false => rfl
                | true =>
                    exfalso
                    apply hapne
                    exact (file_prefix_eq htwf htgtc
                      (by rw [Entry.isDirB_of_stats htgtcstats]; exact hcfile)
                      hpc (by rw [htgta]; intro hcon; cases hcon)).symm
              · cases hpa : isPref a.path c.path with
                | false => rfl
                | true =>
                    exfalso
                    obtain ⟨sfx, hsfx⟩ := isPref_iff.mp hpa
                    cases sfx with
                    | nil => exact hapne (by rw [hsfx, List.append_nil])
                    | cons x xs =>
                        have habs : u.findAt (a.path ++ x :: xs) = none := by
                          rw [Entry.findAt_append, hau]
                          show anode.findAt (x :: xs) = none
                          exact Entry.findAt_cons_none anode x xs
                            (by rw [hnil]; rfl)
                        rw [← hsfx, hupres, htgtc] at habs
                        cases habs
            rw [deleteAt_fst_incomp huwf hincomp (by
              rw [hupres, htgtc]; intro hcon; cases hcon)]
      simp only [expireLoop]
      split
      · rename_i hbr
        simp only [Bool.and_eq_true, Bool.not_eq_true'] at hbr
        have h1 := hstepdir (!cfg.removeCleanedDirs) hbr.1.2 hbr.2
        exact ih hfl' _ (deleteAt_wf huwf) (by rw [h1, hupres])
      · split
        · exact ih hfl' _ huwf hupres
        · split
          · rename_i hdir hsd
            simp only [Bool.not_eq_true] at hdir
            have h1 := hstep (!cfg.removeCleanedDirs) hdir hsd
            exact ih hfl' _ (deleteAt_wf huwf) (by rw [h1, hupres])
          · exact ih hfl' _ huwf hupres

/-! ### Pressure-policy lemmas -/

theorem insertD_mem (key : Cand → Int) (x : Cand) :
    ∀ (l : List Cand) (c : Cand), c ∈ insertD key x l ↔ c = x ∨ c ∈ l := by
  intro l
  induction l with
  | nil => intro c; simp [insertD]
  | cons y ys ih =>
      intro c
      simp only [insertD]
      split
      · simp [List.mem_cons]
      · simp only [List.mem_cons, ih]
        tauto

theorem sortD_mem (key : Cand → Int) :
    ∀ (l : List Cand) (c : Cand), c ∈ sortD key l ↔ c ∈ l := by
  intro l
  induction l with
  | nil => intro c; simp [sortD]
  | cons y ys ih =>
      intro c
      simp only [sortD, insertD_mem, List.mem_cons, ih]

theorem insertD_pairwise (key : Cand → Int) (x : Cand) :
    ∀ (l : List Cand), l.Pairwise (fun a b => key b ≤ key a) →
    (insertD key x l).Pairwise (fun a b => key b ≤ key a) := by
  intro l
  induction l with
  | nil => intro _; simp [insertD]
  | cons y ys ih =>
      intro hp
      rw [List.pairwise_cons] at hp
      simp only [insertD]
      split
      · rename_i hxy
        rw [List.pairwise_cons]
        constructor
        · intro z hz
          simp only [List.mem_cons] at hz
          rcases hz with rfl | hz
          · omega
          · have := hp.1 z hz
            omega
        · rw [List.pairwise_cons]
          exact hp
      · rename_i hxy
        simp only [ge_iff_le, not_le] at hxy
        rw [List.pairwise_cons]
        constructor
        · intro z hz
          rw [insertD_mem] at hz
          rcases hz with rfl | hz
          · omega
          · exact hp.1 z hz
        · exact ih hp.2

theorem sortD_pairwise (key : Cand → Int) :
    ∀ (l : List Cand), (sortD key l).Pairwise (fun a b => key b ≤ key a) := by
  intro l
  induction l with
  | nil => simp [sortD]
  | cons y ys ih => exact insertD_pairwise key y _ ih

/-- Total size (bytes, exact) of a list of candidates. -/
def sumSizes : List Cand → Rat
  | [] => 0
  | c :: l => (c.stats.size : Rat) + sumSizes l

/-- Invariants of the `_pressure` eviction loop over the oldest-first list:
the loop either frees at least the requested amount or exhausts every file
candidate; it deletes only files of the list, keeping their order; and when
the list is sorted oldest-first, every deleted file is at least as old as
every file it leaves undeleted. -/
theorem presLoop_spec (cfg : Config) (dry : Bool) (fails : List (List String))
    (key : Cand → Int) :
    ∀ (l : List Cand) (f : Rat) (t : Entry),
      ((f - sumSizes (presLoop cfg dry fails l f t).deleted ≤ 0) ∨
        (∀ c ∈ l, c.stats.isDirectory = false →
          c ∈ (presLoop cfg dry fails l f t).deleted)) ∧
      ((presLoop cfg dry fails l f t).deleted.Sublist
        (l.filter (fun c => !c.stats.isDirectory))) ∧
      (l.Pairwise (fun a b => key a ≤ key b) →
        ∀ d ∈ (presLoop cfg dry fails l f t).deleted, ∀ u ∈ l,
          u.stats.isDirectory = false →
          u ∉ (presLoop cfg dry fails l f t).deleted → key d ≤ key u) := by
  intro l
  induction l with
  | nil =>
      intro f t
      refine ⟨Or.inr ?_, ?_, ?_⟩
      · intro c hc; cases hc
      · simp [presLoop]
      · intro _ d hd; simp [presLoop] at hd
  | cons c rest ih =>
      intro f t
      simp only [presLoop]
      split
      · -- toFree ≤ 0: stop
        rename_i hstop
        refine ⟨Or.inl (by simpa [sumSizes] using hstop), List.nil_sublist _, ?_⟩
        intro _ d hd; cases hd
      · rename_i hgo
        split
        · -- directory: skipped
          rename_i hdir
          have ihr := ih f t
          refine ⟨?_, ?_, ?_⟩
          · rcases ihr.1 with h | h
            · exact Or.inl h
            · refine Or.inr ?_
              intro x hx hxf
              rcases List.mem_cons.mp hx with rfl | hx
              · rw [hdir] at hxf; cases hxf
              · exact h x hx hxf
          · have : (c :: rest).filter (fun x => !x.stats.isDirectory) =
                rest.filter (fun x => !x.stats.isDirectory) := by
              simp [List.filter, hdir]
            rw [this]
            exact ihr.2.1
          · intro hpw d hd u hu huf hund
            rw [List.pairwise_cons] at hpw
            rcases List.mem_cons.mp hu with rfl | hu
            · rw [hdir] at huf; cases huf
            · exact ihr.2.2 hpw.2 d hd u hu huf hund
        · -- file: delete it
          rename_i hdir
          simp only [Bool.not_eq_true] at hdir
          have ihr := ih (f - (c.stats.size : Rat))
            (deleteAt dry fails (!cfg.removeCleanedDirs) t c.path).1
          refine ⟨?_, ?_, ?_⟩
          · rcases ihr.1 with h | h
            · refine Or.inl ?_
              simp only [sumSizes]
              have : f - ((c.stats.size : Rat) +
                  sumSizes (presLoop cfg dry fails rest (f - (c.stats.size : Rat))
                    (deleteAt dry fails (!cfg.removeCleanedDirs) t c.path).1).deleted) =
                  (f - (c.stats.size : Rat)) -
                  sumSizes (presLoop cfg dry fails rest (f - (c.stats.size : Rat))
                    (deleteAt dry fails (!cfg.removeCleanedDirs) t c.path).1).deleted := by
                ring
              rw [this]
              exact h
            · refine Or.inr ?_
              intro x hx hxf
              rcases List.mem_cons.mp hx with rfl | hx
              · exact List.mem_cons_self _ _
              · exact List.mem_cons_of_mem _ (h x hx hxf)
          · have : (c :: rest).filter (fun x => !x.stats.isDirectory) =
                c :: rest.filter (fun x => !x.stats.isDirectory) := by
              simp [List.filter, hdir]
            rw [this]
            exact List.Sublist.cons₂ c ihr.2.1
          · intro hpw d hd u hu huf hund
            rw [List.pairwise_cons] at hpw
            rcases List.mem_cons.mp hd with rfl | hd
            · rcases List.mem_cons.mp hu with rfl | hu
              · exact absurd (List.mem_cons_self _ _) hund
              · exact hpw.1 u hu
            · rcases List.mem_cons.mp hu with rfl | hu
              · exact absurd (List.mem_cons_self _ _) hund
              · exact ihr.2.2 hpw.2 d hd u hu huf
                  (fun hmem => hund (List.mem_cons_of_mem _ hmem))

/-! ### Dry-run parity -/

theorem deleteAt_fst_dry (kep : Bool) (t : Entry) (rel : List String) :
    (deleteAt true [] kep t rel).1 = (deleteAt false [] kep t rel).1 := by
  simp only [deleteAt]
  have h := deleteAtAux_fst_dry [] kep rel [] t rfl
  cases h1 : deleteAtAux true [] kep [] t rel with
  | mk o1 l1 =>
      cases h2 : deleteAtAux false [] kep [] t rel with
      | mk o2 l2 =>
          rw [h1, h2] at h
          simp only at h
          subst h
          cases o1 with
          | none => rfl
          | some x => rfl

/-- `_expire`'s loop produces the same tree and the same deleted list in dry
and wet mode (when no storage failure occurs in wet mode). -/
theorem expireLoop_dry (cfg : Config) (now : Int) :
    ∀ (l : List Cand) (t : Entry),
      (expireLoop cfg now true [] l t).tree = (expireLoop cfg now false [] l t).tree ∧
      (expireLoop cfg now true [] l t).deleted = (expireLoop cfg now false [] l t).deleted := by
  intro l
  induction l with
  | nil => intro t; exact ⟨rfl, rfl⟩
  | cons a l' ih =>
      intro t
      simp only [expireLoop]
      split
      · have hd := deleteAt_fst_dry (!cfg.removeCleanedDirs) t a.path
        rw [hd]
        have := ih (deleteAt false [] (!cfg.removeCleanedDirs) t a.path).1
        exact ⟨this.1, by rw [this.2]⟩
      · split
        · exact ih t
        · split
          · have hd := deleteAt_fst_dry (!cfg.removeCleanedDirs) t a.path
            rw [hd]
            have := ih (deleteAt false [] (!cfg.removeCleanedDirs) t a.path).1
            exact ⟨this.1, by rw [this.2]⟩
          · exact ih t

theorem presLoop_dry (cfg : Config) :
    ∀ (l : List Cand) (f : Rat) (t : Entry),
      (presLoop cfg true [] l f t).tree = (presLoop cfg false [] l f t).tree ∧
      (presLoop cfg true [] l f t).deleted = (presLoop cfg false [] l f t).deleted := by
  intro l
  induction l with
  | nil => intro f t; exact ⟨rfl, rfl⟩
  | cons a l' ih =>
      intro f t
      simp only [presLoop]
      split
      · exact ⟨rfl, rfl⟩
      · split
        · exact ih f t
        · have hd := deleteAt_fst_dry (!cfg.removeCleanedDirs) t a.path
          rw [hd]
          have := ih (f - (a.stats.size : Rat))
            (deleteAt false [] (!cfg.removeCleanedDirs) t a.path).1
          exact ⟨this.1, by rw [this.2]⟩

/-- In dry mode no storage operation is logged anywhere in a `delete`. -/
theorem deleteNode_deleteChildren_dry_log :
    (∀ e : Entry, ∀ (fails : List (List String)) (kep : Bool) (p : List String),
      (deleteNode true fails kep p e).2 = []) ∧
    (∀ f : Forest, ∀ (fails : List (List String)) (p : List String),
      (deleteChildren true fails p f).2 = []) := by
  apply entryForestInd
  · intro n st cs ihf fails kep p
    simp only [deleteNode]
    split
    · rw [ihf fails p]
      split
      · split
        · rfl
        · split
          · rfl
          · simp at *
      · rfl
    · split
      · rfl
      · split
        · rfl
        · simp at *
  · intro fails p
    rfl
  · intro c rest ihc ihr fails p
    simp only [deleteChildren]
    rw [ihc fails true (p ++ [c.name]), ihr fails p]
    rfl

theorem deleteAtAux_dry_log :
    ∀ (rel : List String) (fails : List (List String)) (kep : Bool)
      (p : List String) (e : Entry), (deleteAtAux true fails kep p e rel).2 = [] := by
  intro rel
  induction rel with
  | nil => intro fails kep p e; rfl
  | cons n rel' ih =>
      intro fails kep p e
      cases e with
      | node en est cs =>
      cases rel' with
      | nil =>
          cases hc : cs.findC n with
          | none => simp only [deleteAtAux, hc]
          | some c =>
              simp only [deleteAtAux, hc]
              have h1 := deleteNode_deleteChildren_dry_log.1 c fails kep (p ++ [n])
              cases hres : deleteNode true fails kep (p ++ [n]) c with
              | mk o log =>
                  rw [hres] at h1
                  simp only at h1
                  subst h1
                  cases o with
                  | some c' => rfl
                  | none =>
                      simp only [unwindStep]
                      split
                      · rw [deleteNode_deleteChildren_dry_log.1]
                        rfl
                      · rfl
      | cons n2 rel2 =>
          cases hc : cs.findC n with
          | none => simp only [deleteAtAux, hc]
          | some c =>
              simp only [deleteAtAux, hc]
              have h1 := ih fails kep (p ++ [n]) c
              cases hres : deleteAtAux true fails kep (p ++ [n]) c (n2 :: rel2) with
              | mk o log =>
                  rw [hres] at h1
                  simp only at h1
                  subst h1
                  cases o with
                  | some c' => rfl
                  | none =>
                      simp only [unwindStep]
                      split
                      · rw [deleteNode_deleteChildren_dry_log.1]
                        rfl
                      · rfl

theorem deleteAt_dry_log (fails : List (List String)) (kep : Bool) (t : Entry)
    (rel : List String) : (deleteAt true fails kep t rel).2 = [] := by
  simp only [deleteAt]
  have h := deleteAtAux_dry_log rel fails kep [] t
  cases hres : deleteAtAux true fails kep [] t rel with
  | mk o log =>
      rw [hres] at h
      simp only at h
      subst h
      cases o with
      | some x => rfl
      | none => rfl

theorem expireLoop_dry_log (cfg : Config) (now : Int) (fails : List (List String)) :
    ∀ (l : List Cand) (t : Entry), (expireLoop cfg now true fails l t).log = [] := by
  intro l
  induction l with
  | nil => intro t; rfl
  | cons a l' ih =>
      intro t
      simp only [expireLoop]
      split
      · simp only
        rw [deleteAt_dry_log, ih]
        rfl
      · split
        · exact ih t
        · split
          · simp only
            rw [deleteAt_dry_log, ih]
            rfl
          · exact ih t

theorem presLoop_dry_log (cfg : Config) (fails : List (List String)) :
    ∀ (l : List Cand) (f : Rat) (t : Entry),
      (presLoop cfg true fails l f t).log = [] := by
  intro l
  induction l with
  | nil => intro f t; rfl
  | cons a l' ih =>
      intro f t
      simp only [presLoop]
      split
      · rfl
      · split
        · exact ih _ t
        · simp only
          rw [deleteAt_dry_log, ih]
          rfl

/-- Forget the storage log of a policy result (dry and wet runs agree on the
rest). -/
def dropLog (r : StepRes) : Entry × List Cand := (r.tree, r.deleted)

theorem expireModel_dry (cfg : Config) (now : Int) (t : Entry) :
    (expireModel cfg now true [] t).map dropLog =
      (expireModel cfg now false [] t).map dropLog := by
  simp only [expireModel]
  cases t.listE cfg.folder with
  | error e => rfl
  | ok l =>
      simp only [Except.map, dropLog]
      have h := expireLoop_dry cfg now l t
      rw [h.1, h.2]

theorem pressureModel_dry (cfg : Config) (disk : DiskUsage) (t : Entry) :
    (pressureModel cfg disk true [] t).map dropLog =
      (pressureModel cfg disk false [] t).map dropLog := by
  simp only [pressureModel]
  cases t.listE cfg.folder with
  | error e => rfl
  | ok l =>
      simp only
      split
      · rfl
      · simp only [Except.map, dropLog]
        have h := presLoop_dry cfg
          ((sortD (fun c => c.stats.time cfg.timeType) l).reverse)
          ((disk.total - disk.available) - disk.total * cfg.pressure) t
        rw [h.1, h.2]

theorem cleanModel_dry (cfg : Config) (disk : DiskUsage) (now : Int) (t : Entry) :
    (cleanModel cfg disk now true [] t).map dropLog =
      (cleanModel cfg disk now false [] t).map dropLog := by
  simp only [cleanModel]
  have he := expireModel_dry cfg now t
  cases h1 : expireModel cfg now true [] t with
  | error e1 =>
      cases h2 : expireModel cfg now false [] t with
      | error e2 =>
          rw [h1, h2] at he
          simp only [Except.map] at he
          cases he
          rfl
      | ok r2 => rw [h1, h2] at he; simp [Except.map] at he
  | ok r1 =>
      cases h2 : expireModel cfg now false [] t with
      | error e2 => rw [h1, h2] at he; simp [Except.map] at he
      | ok r2 =>
          rw [h1, h2] at he
          simp only [Except.map, Except.ok.injEq, dropLog] at he
          have htree : r1.tree = r2.tree := congrArg Prod.fst he
          have hdel : r1.deleted = r2.deleted := congrArg Prod.snd he
          have hp := pressureModel_dry cfg disk r1.tree
          rw [htree] at hp
          cases hp1 : pressureModel cfg disk true [] r2.tree with
          | error e1 =>
              cases hp2 : pressureModel cfg disk false [] r2.tree with
              | error e2 =>
                  rw [hp1, hp2] at hp
                  simp only [Except.map] at hp
                  cases hp
                  simp only
                  rw [htree, hp1, hp2]
              | ok q2 => rw [hp1, hp2] at hp; simp [Except.map] at hp
          | ok q1 =>
              cases hp2 : pressureModel cfg disk false [] r2.tree with
              | error e2 => rw [hp1, hp2] at hp; simp [Except.map] at hp
              | ok q2 =>
                  rw [hp1, hp2] at hp
                  simp only [Except.map, Except.ok.injEq, dropLog] at hp
                  have hqtree : q1.tree = q2.tree := congrArg Prod.fst hp
                  have hqdel : q1.deleted = q2.deleted := congrArg Prod.snd hp
                  simp only
                  rw [htree, hp1, hp2]
                  simp only [Except.map, dropLog, Except.ok.injEq]
                  rw [hqtree, hqdel, hdel]

theorem cleanModel_dry_log (cfg : Config) (disk : DiskUsage) (now : Int)
    (t : Entry) (r : StepRes) (h : cleanModel cfg disk now true [] t = .ok r) :
    r.log = [] := by
  simp only [cleanModel, expireModel, pressureModel] at h
  cases hl : t.listE cfg.folder with
  | error e => rw [hl] at h; cases h
  | ok l =>
      rw [hl] at h
      simp only at h
      cases hlist2 : (expireLoop cfg now true [] l t).tree.listE cfg.folder with
      | error e2 => rw [hlist2] at h; cases h
      | ok l2 =>
          rw [hlist2] at h
          simp only at h
          by_cases hcond : 1 - disk.available / disk.total < cfg.pressure
          · rw [if_pos hcond] at h
            simp only at h
            cases h
            simp [expireLoop_dry_log]
          · rw [if_neg hcond] at h
            simp only at h
            cases h
            simp [expireLoop_dry_log, presLoop_dry_log]

/-! ### Model assembly lemmas -/

theorem pressureModel_below {cfg : Config} {disk : DiskUsage} (dry : Bool)
    (fails : List (List String)) {t : Entry} {l : List Cand}
    (hl : t.listE cfg.folder = .ok l)
    (hbelow : 1 - disk.available / disk.total < cfg.pressure) :
    pressureModel cfg disk dry fails t = .ok ⟨t, [], []⟩ := by
  simp only [pressureModel, hl, if_pos hbelow]

theorem pressureModel_engaged {cfg : Config} {disk : DiskUsage} (dry : Bool)
    (fails : List (List String)) {t : Entry} {l : List Cand}
    (hl : t.listE cfg.folder = .ok l)
    (hnb : ¬(1 - disk.available / disk.total < cfg.pressure)) :
    pressureModel cfg disk dry fails t =
      .ok (presLoop cfg dry fails
        ((sortD (fun c => c.stats.time cfg.timeType) l).reverse)
        ((disk.total - disk.available) - disk.total * cfg.pressure) t) := by
  simp only [pressureModel, hl, if_neg hnb]

theorem cleanModel_comp {cfg : Config} {disk : DiskUsage} {now : Int}
    {dry : Bool} {fails : List (List String)} {t : Entry} {r1 r2 : StepRes}
    (h1 : expireModel cfg now dry fails t = .ok r1)
    (h2 : pressureModel cfg disk dry fails r1.tree = .ok r2) :
    cleanModel cfg disk now dry fails t =
      .ok ⟨r2.tree, r1.deleted ++ r2.deleted, r1.log ++ r2.log⟩ := by
  simp only [cleanModel, h1, h2]

theorem pressureModel_ok_listE {cfg : Config} {disk : DiskUsage} {dry : Bool}
    {fails : List (List String)} {t : Entry} {r : StepRes}
    (h : pressureModel cfg disk dry fails t = .ok r) :
    ∃ l, t.listE cfg.folder = .ok l := by
  simp only [pressureModel] at h
  cases hl : t.listE cfg.folder with
  | error e => rw [hl] at h; cases h
  | ok l => exact ⟨l, rfl⟩

theorem expireModel_ok_listE {cfg : Config} {now : Int} {dry : Bool}
    {fails : List (List String)} {t : Entry} {r : StepRes}
    (h : expireModel cfg now dry fails t = .ok r) :
    ∃ l, t.listE cfg.folder = .ok l ∧ r = expireLoop cfg now dry fails l t := by
  simp only [expireModel] at h
  cases hl : t.listE cfg.folder with
  | error e => rw [hl] at h; cases h
  | ok l =>
      rw [hl] at h
      cases h
      exact ⟨l, rfl, rfl⟩

/-- Every exception escaping a cycle is the traversal `TypeError`; in
particular no configuration error is ever raised mid-cycle. -/
theorem cleanModel_error {cfg : Config} {disk : DiskUsage} {now : Int}
    {dry : Bool} {fails : List (List String)} {t : Entry} {e : Err}
    (h : cleanModel cfg disk now dry fails t = .error e) : e = .typeError := by
  simp only [cleanModel] at h
  cases h1 : expireModel cfg now dry fails t with
  | error e1 =>
      rw [h1] at h
      cases h
      simp only [expireModel] at h1
      cases hl : t.listE cfg.folder with
      | error e2 =>
          rw [hl] at h1
          cases h1
          exact Entry.listE_error hl
      | ok l => rw [hl] at h1; cases h1
  | ok r1 =>
      rw [h1] at h
      simp only at h
      cases h2 : pressureModel cfg disk dry fails r1.tree with
      | error e2 =>
          rw [h2] at h
          cases h
          simp only [pressureModel] at h2
          cases hl : r1.tree.listE cfg.folder with
          | error e3 =>
              rw [hl] at h2
              cases h2
              exact Entry.listE_error hl
          | ok l =>
              rw [hl] at h2
              simp only at h2
              split at h2
              · cases h2
              · cases h2
      | ok r2 => rw [h2] at h; cases h

/-! ### populate lemmas -/

theorem populate_stat_error {fs : FSIface} {fuel : Nat} {p : List String}
    {nm : String} (h : fs.statP p = .error ()) :
    populate fs fuel p nm = .node nm none .nil := by
  cases fuel with
  | zero => rfl
  | succ f => simp [populate, h]

theorem ofList_map_findC (g : String → Entry) (hg : ∀ m, (g m).name = m) :
    ∀ (ms : List String) (n : String),
      (populate.ofList (ms.map g)).findC n =
        (if n ∈ ms then some (g n) else none) := by
  intro ms
  induction ms with
  | nil => intro n; simp [populate.ofList, Forest.findC]
  | cons m ms' ih =>
      intro n
      simp only [List.map, populate.ofList, Forest.findC, hg]
      by_cases hmn : m = n
      · subst hmn
        simp
      · rw [if_neg hmn, ih n]
        simp only [List.mem_cons]
        by_cases hn : n ∈ ms'
        · rw [if_pos hn, if_pos (Or.inr hn)]
        · rw [if_neg hn, if_neg (by
            intro hcon
            rcases hcon with hcon | hcon
            · exact hmn hcon.symm
            · exact hn hcon)]

/-- Amended race-tolerance fact: when a listed child's stat fails (for
example because the child vanished between `readdir` and `stat`), `populate`
completes without raising and the child *remains* registered in the parent's
children map as a metadata-less node. -/
theorem populate_vanished_child {fs : FSIface} {p : List String}
    {nm n : String} {st : Stats} {names : List String} (fuel : Nat)
    (hstat : fs.statP p = .ok st) (hdir : st.isDirectory = true)
    (hlist : fs.listDir p = .ok names) (hn : n ∈ names)
    (hn1 : ¬n = ".") (hn2 : ¬n = "..")
    (hchild : fs.statP (p ++ [n]) = .error ()) :
    (populate fs (fuel + 1) p nm).children.findC n =
      some (.node n none .nil) := by
  simp only [populate, hstat, hdir, Bool.not_true, Bool.false_eq_true,
    if_false, hlist]
  simp only [Entry.children]
  rw [ofList_map_findC (fun m => populate fs fuel (p ++ [m]) m) (by
    intro m
    cases fuel with
    | zero => rfl
    | succ f =>
        simp only [populate]
        cases fs.statP (p ++ [m]) with
        | error e => rfl
        | ok st2 =>
            simp only
            split
            · rfl
            · cases fs.listDir (p ++ [m]) with
              | error e => rfl
              | ok l2 => rfl)]
  rw [if_pos (by
    rw [List.mem_filter]
    exact ⟨hn, by simp [hn1, hn2]⟩)]
  rw [populate_stat_error hchild]

/-! ### Remaining small helpers -/

theorem shouldDelete_iff (cfg : Config) (now : Int) (ps : String) (st : Stats) :
    shouldDelete cfg now ps st = true ↔
      (filterMatch cfg.filter ps st = true ∧
        ltExpire (now - st.time cfg.timeType) cfg.expire = false) := by
  unfold shouldDelete
  split
  · rename_i h
    constructor
    · intro hc; cases hc
    · intro ⟨h1, _⟩; rw [h] at h1; cases h1
  · rename_i h
    simp only [Bool.not_eq_false] at h
    split
    · rename_i h2
      constructor
      · intro hc; cases hc
      · intro ⟨_, h3⟩; rw [h2] at h3; cases h3
    · rename_i h2
      simp only [Bool.not_eq_true] at h2
      constructor
      · intro _
        exact ⟨by
          cases hf : filterMatch cfg.filter ps st with
          | true => rfl
          | false => exact absurd hf (by rw [h]; intro hc; cases hc), h2⟩
      · intro _; rfl

theorem nodeNil_findAt (nm : String) (st : Option Stats) {rel : List String}
    (hne : rel ≠ []) : (Entry.node nm st .nil).findAt rel = none := by
  cases rel with
  | nil => exact absurd rfl hne
  | cons x xs => exact Entry.findAt_cons_none _ x xs (by rfl)

/-- Incomparable paths are untouched by `deleteAt`, present or not. -/
theorem deleteAt_incomp_all {dry : Bool} {fails : List (List String)}
    {kep : Bool} {u : Entry} {rel p : List String} (hwf : u.wfB = true)
    (hq : Incomp p rel) :
    (deleteAt dry fails kep u rel).1.findAt p = u.findAt p := by
  simp only [deleteAt]
  have h := deleteAtAux_fst_incomp rel dry fails kep [] u hwf p hq
  cases hres : deleteAtAux dry fails kep [] u rel with
  | mk o log =>
      cases o with
      | some t' => exact h.1 t' (by rw [hres])
      | none =>
          rw [h.2 (by rw [hres]), nodeNil_findAt _ _ (Incomp_ne_nil hq)]

theorem take_cons_of_pos {α : Type} (x : α) (xs : List α) {i : Nat}
    (hi : 1 ≤ i) : (x :: xs).take i = x :: xs.take (i - 1) := by
  obtain ⟨i', rfl⟩ : ∃ i', i = i' + 1 := ⟨i - 1, by omega⟩
  simp [List.take_succ_cons]

/-! ### Concrete fixtures -/

def dirStats : Stats := ⟨4096, 0, 0, 0, 0, true⟩
def oldStats : Stats := ⟨100, 0, -864000000, 0, 0, false⟩
def newStats : Stats := ⟨50, 0, -3600000, 0, 0, false⟩

/-- The §8 filter "matching `*.log`", embedded by its match function on the
two paths of the scenario. -/
def logFilter : Filter :=
  .regex (fun s => s = "/watch/a/old.log" || s = "/watch/a/new.log")

/-- §8: `maxAge = 24h`, mtime-based, pressure disabled (`pressure = 1`),
`removeCleanedDirs` on. -/
def cfg8 : Config := ⟨"/watch", .mtime, logFilter, some 86400000, 1, false, true⟩

/-- §8: `/watch` containing `a/old.log` (age 10 days) and `a/new.log`
(age 1 hour), at `now = 0`. -/
def tree8 : Entry :=
  .node "watch" (some dirStats)
    (.cons (.node "a" (some dirStats)
      (.cons (.node "old.log" (some oldStats) .nil)
        (.cons (.node "new.log" (some newStats) .nil) .nil))) .nil)

def tree8after : Entry :=
  .node "watch" (some dirStats)
    (.cons (.node "a" (some dirStats)
      (.cons (.node "new.log" (some newStats) .nil) .nil)) .nil)

def oldCand8 : Cand := ⟨["a", "old.log"], "/watch/a/old.log", oldStats⟩

def disk8 : DiskUsage := ⟨100, 50⟩

/-- A filesystem in which the root directory lists one child `gone` whose
stat then fails (the child vanished between listing and stat). -/
def vanishFS : FSIface where
  statP := fun p => if p = [] then .ok dirStats else .error ()
  listDir := fun _ => .ok ["gone"]

/-- The tree `populate` builds over `vanishFS`: the root with the vanished
child still registered, stats-less. -/
def vanishTree : Entry := .node "w" (some dirStats) (.cons (.node "gone" none .nil) .nil)

def plainFilter : Filter := .regex (fun _ => true)

def cfgV : Config := ⟨"/w", .mtime, plainFilter, some 0, 1, false, true⟩

/-! ### Claims -/

/-- **C4** (counterexample to the claim as stated): after populating over
`vanishFS`, the vanished child `gone` is *present* in the parent's children
map — not absent as claimed — as a metadata-less node. -/
theorem C4_counterexample :
    (populate vanishFS 1 [] "w").children.findC "gone" =
      some (.node "gone" none .nil) ∧
    populate vanishFS 1 [] "w" = vanishTree := by
  constructor
  · decide
  · decide

/-- **C4** (amended): for every directory population in which a listed
child's metadata fetch fails, `populate` completes without raising (it is a
total function) and the vanished child *remains* in the parent's children
mapping as a metadata-less node. -/
theorem C4_populate_vanished (fs : FSIface) (p : List String)
    (nm n : String) (st : Stats) (names : List String) (fuel : Nat)
    (hstat : fs.statP p = .ok st) (hdir : st.isDirectory = true)
    (hlist : fs.listDir p = .ok names) (hn : n ∈ names)
    (hn1 : ¬n = ".") (hn2 : ¬n = "..")
    (hchild : fs.statP (p ++ [n]) = .error ()) :
    (populate fs (fuel + 1) p nm).children.findC n =
      some (.node n none .nil) :=
  populate_vanished_child fuel hstat hdir hlist hn hn1 hn2 hchild

theorem C4_witness :
    vanishFS.statP [] = .ok dirStats ∧ dirStats.isDirectory = true ∧
    vanishFS.listDir [] = .ok ["gone"] ∧ "gone" ∈ ["gone"] ∧
    vanishFS.statP ([] ++ ["gone"]) = .error () ∧
    (populate vanishFS 1 [] "w").children.findC "gone" =
      some (.node "gone" none .nil) :=
  ⟨by decide, by decide, by decide, by decide, by decide,
    C4_populate_vanished vanishFS [] "w" "gone" dirStats ["gone"] 0
      (by decide) (by decide) (by decide) (by decide)
      (by decide) (by decide) (by decide)⟩

/-- **C5** (the claim is right, the code is wrong): a node left without
metadata by a failed stat is *not* treated as inert — `traverse` reads its
`isDir` getter, which throws a `TypeError` on the `null` stats, so
`entry.list()` and with it the whole cycle abort.  Failing input: the tree
`populate` itself builds over `vanishFS` (root `/w` with vanished child
`gone`). -/
theorem C5_statless_node_aborts :
    populate vanishFS 1 [] "w" = vanishTree ∧
    vanishTree.listE "/w" = .error .typeError ∧
    expireModel cfgV 1000 false [] vanishTree = .error .typeError ∧
    cleanModel cfgV disk8 1000 false [] vanishTree = .error .typeError := by
  refine ⟨by decide, by decide, by decide, by decide⟩

/-- **C7**: for a fixed tree, configuration and disk sample with no storage
failures, a dry `clean` and a wet `clean` produce the identical deleted list
and the identical final in-memory tree (`dropLog` forgets only the storage
log); and the dry run performs no storage mutation at all. -/
theorem C7_dry_run_parity (cfg : Config) (disk : DiskUsage) (now : Int)
    (t : Entry) :
    (cleanModel cfg disk now true [] t).map dropLog =
      (cleanModel cfg disk now false [] t).map dropLog ∧
    (∀ r, cleanModel cfg disk now true [] t = .ok r → r.log = []) :=
  ⟨cleanModel_dry cfg disk now t,
    fun r h => cleanModel_dry_log cfg disk now t r h⟩

theorem C7_witness :
    (cleanModel cfg8 disk8 0 true [] tree8).map dropLog =
      (cleanModel cfg8 disk8 0 false [] tree8).map dropLog :=
  (C7_dry_run_parity cfg8 disk8 0 tree8).1

/-- **C8**: a cycle builds a fresh tree, runs the age policy over it, runs
the pressure policy over the reduced tree, and returns exactly the age
deletions followed by the pressure deletions; when usage is below the
threshold the pressure contribution is empty. -/
theorem C8_clean_composition (cfg : Config) (disk : DiskUsage) (now : Int)
    (dry : Bool) (fails : List (List String)) (fs : FSIface) (fuel : Nat)
    (r1 r2 : StepRes)
    (h1 : expireModel cfg now dry fails (buildRoot fs fuel) = .ok r1)
    (h2 : pressureModel cfg disk dry fails r1.tree = .ok r2) :
    cleanFS cfg disk now dry fails fs fuel =
      .ok ⟨r2.tree, r1.deleted ++ r2.deleted, r1.log ++ r2.log⟩ ∧
    (1 - disk.available / disk.total < cfg.pressure →
      r2 = ⟨r1.tree, [], []⟩ ∧
      cleanFS cfg disk now dry fails fs fuel =
        .ok ⟨r1.tree, r1.deleted, r1.log⟩) := by
  constructor
  · exact cleanModel_comp h1 h2
  · intro hbelow
    obtain ⟨l2, hl2⟩ := pressureModel_ok_listE h2
    have hb := pressureModel_below dry fails hl2 hbelow
    rw [h2] at hb
    injection hb with hr2
    subst hr2
    refine ⟨rfl, ?_⟩
    have := cleanModel_comp h1 h2
    simpa using this

theorem ofString_eq_none_iff (sstr : String) :
    TimeType.ofString sstr = none ↔ ¬ sstr ∈ validTimeTypes := by
  unfold TimeType.ofString validTimeTypes
  split_ifs with h1 h2 h3 h4 <;> simp_all

/-- **C9**: the constructor raises synchronously iff the root folder is
missing, or the resolved folder has at most two separator segments without
the override, or the timestamp selector is invalid; and a cleanup cycle
never raises a configuration error. -/
theorem C9_constructor_validation :
    (∀ (folder : String) (allowRoot : Bool) (timeTypeStr : String)
      (filter : Filter) (expire : Option Int) (pressure : Rat)
      (red rcd : Bool),
      (∃ e, construct folder allowRoot timeTypeStr filter expire pressure
        red rcd = .error e) ↔
        (folder = "" ∨ (allowRoot = false ∧ sepSegments folder ≤ 2) ∨
          ¬ timeTypeStr ∈ validTimeTypes)) ∧
    (∀ (cfg : Config) (disk : DiskUsage) (now : Int) (dry : Bool)
      (fails : List (List String)) (t : Entry) (msg : String),
      cleanModel cfg disk now dry fails t ≠ .error (.configError msg)) := by
  constructor
  · intro folder allowRoot timeTypeStr filter expire pressure red rcd
    simp only [construct]
    by_cases h1 : folder = ""
    · simp only [if_pos h1]
      exact ⟨fun _ => Or.inl h1, fun _ => ⟨_, rfl⟩⟩
    · rw [if_neg h1]
      by_cases h2 : (!allowRoot && decide (sepSegments folder ≤ 2)) = true
      · rw [if_pos h2]
        simp only [Bool.and_eq_true, Bool.not_eq_true', decide_eq_true_eq] at h2
        exact ⟨fun _ => Or.inr (Or.inl h2), fun _ => ⟨_, rfl⟩⟩
      · rw [if_neg h2]
        simp only [Bool.and_eq_true, Bool.not_eq_true', decide_eq_true_eq,
          not_and] at h2
        cases hof : TimeType.ofString timeTypeStr with
        | none =>
            constructor
            · intro _
              exact Or.inr (Or.inr ((ofString_eq_none_iff timeTypeStr).mp hof))
            · intro _; exact ⟨_, rfl⟩
        | some tt =>
            constructor
            · intro ⟨e, he⟩; cases he
            · intro hcon
              exfalso
              rcases hcon with h | ⟨ha, hl⟩ | h
              · exact h1 h
              · exact absurd hl (by
                  intro hcon2
                  have := h2 ha
                  omega)
              · exact h (by
                  by_contra hmem
                  rw [← ofString_eq_none_iff timeTypeStr] at hmem
                  rw [hmem] at hof
                  cases hof)
  · intro cfg disk now dry fails t msg hcon
    have := cleanModel_error hcon
    cases this

theorem cleanModel_ok_inv {cfg : Config} {disk : DiskUsage} {now : Int}
    {dry : Bool} {fails : List (List String)} {t : Entry} {r : StepRes}
    (h : cleanModel cfg disk now dry fails t = .ok r) :
    ∃ r1 r2, expireModel cfg now dry fails t = .ok r1 ∧
      pressureModel cfg disk dry fails r1.tree = .ok r2 ∧
      r = ⟨r2.tree, r1.deleted ++ r2.deleted, r1.log ++ r2.log⟩ := by
  simp only [cleanModel] at h
  cases h1 : expireModel cfg now dry fails t with
  | error e => rw [h1] at h; cases h
  | ok r1 =>
      rw [h1] at h
      simp only at h
      cases h2 : pressureModel cfg disk dry fails r1.tree with
      | error e => rw [h2] at h; cases h
      | ok r2 =>
          rw [h2] at h
          cases h
          exact ⟨r1, r2, rfl, h2, rfl⟩

theorem pressureModel_deleted_files {cfg : Config} {disk : DiskUsage}
    {dry : Bool} {fails : List (List String)} {t : Entry} {r : StepRes}
    (h : pressureModel cfg disk dry fails t = .ok r) :
    ∀ c ∈ r.deleted, c.stats.isDirectory = false := by
  simp only [pressureModel] at h
  cases hl : t.listE cfg.folder with
  | error e => rw [hl] at h; cases h
  | ok l =>
      rw [hl] at h
      simp only at h
      split at h
      · cases h
        intro c hc
        cases hc
      · cases h
        intro c hc
        have hsub := (presLoop_spec cfg dry fails
          (fun c => c.stats.time cfg.timeType)
          ((sortD (fun c => c.stats.time cfg.timeType) l).reverse)
          ((disk.total - disk.available) - disk.total * cfg.pressure) t).2.1
        have hmem := hsub.subset hc
        rw [List.mem_filter] at hmem
        simpa using hmem.2

/-- The stats of the file deleted in the cascade fixture. -/
def fileStatsC : Stats := ⟨10, 0, 0, 0, 0, false⟩

/-- Cascade fixture: `/w/a/only.log` where `a` has a single child. -/
def treeC : Entry :=
  .node "w" (some dirStats)
    (.cons (.node "a" (some dirStats)
      (.cons (.node "only.log" (some fileStatsC) .nil) .nil)) .nil)

def cfgC : Config := ⟨"/w", .mtime, plainFilter, some 0, 1, false, true⟩

def onlyCandC : Cand := ⟨["a", "only.log"], "/w/a/only.log", fileStatsC⟩

/-- Every entry the `_expire` loop records was an element of the captured
listing, and a recorded directory can only come from the explicit
empty-directory branch, which is guarded by `removeEmptyDirs` (the other
recording branch is reached only for non-directories). -/
theorem expireLoop_mem_src (cfg : Config) (now : Int) (dry : Bool)
    (fails : List (List String)) :
    ∀ (l : List Cand) (t : Entry) (c : Cand),
      c ∈ (expireLoop cfg now dry fails l t).deleted →
      c ∈ l ∧ (c.stats.isDirectory = true → cfg.removeEmptyDirs = true) := by
  intro l
  induction l with
  | nil => intro t c h; simp [expireLoop] at h
  | cons a rest ih =>
      intro t c h
      simp only [expireLoop] at h
      split at h
      · rename_i hbr
        simp only [Bool.and_eq_true] at hbr
        simp only [List.mem_cons] at h
        rcases h with h | h
        · subst h
          exact ⟨List.mem_cons_self _ _, fun _ => hbr.1.1⟩
        · obtain ⟨h1, h2⟩ := ih _ c h
          exact ⟨List.mem_cons_of_mem a h1, h2⟩
      · split at h
        · obtain ⟨h1, h2⟩ := ih _ c h
          exact ⟨List.mem_cons_of_mem a h1, h2⟩
        · rename_i hdir
          split at h
          · simp only [List.mem_cons] at h
            rcases h with h | h
            · subst h
              exact ⟨List.mem_cons_self _ _, fun hcon => absurd hcon hdir⟩
            · obtain ⟨h1, h2⟩ := ih _ c h
              exact ⟨List.mem_cons_of_mem a h1, h2⟩
          · obtain ⟨h1, h2⟩ := ih _ c h
            exact ⟨List.mem_cons_of_mem a h1, h2⟩

/-- Every entry the `_pressure` loop records was an element of the listing it
captured, and is a file (the loop skips directories unconditionally). -/
theorem pressureModel_deleted_src {cfg : Config} {disk : DiskUsage}
    {dry : Bool} {fails : List (List String)} {t : Entry} {r : StepRes}
    {l : List Cand} (hl : t.listE cfg.folder = .ok l)
    (h : pressureModel cfg disk dry fails t = .ok r) :
    ∀ c ∈ r.deleted, c ∈ l ∧ c.stats.isDirectory = false := by
  simp only [pressureModel] at h
  rw [hl] at h
  simp only at h
  split at h
  · cases h
    intro c hc
    cases hc
  · cases h
    intro c hc
    have hsub := (presLoop_spec cfg dry fails
      (fun c => c.stats.time cfg.timeType)
      ((sortD (fun c => c.stats.time cfg.timeType) l).reverse)
      ((disk.total - disk.available) - disk.total * cfg.pressure) t).2.1
    have hmem := hsub.subset hc
    rw [List.mem_filter] at hmem
    have hl1 := hmem.1
    rw [List.mem_reverse] at hl1
    exact ⟨(sortD_mem _ l c).mp hl1, by simpa using hmem.2⟩

/-- The `removeEmptyDirs = true` cascade fixture: `/w` containing
`a/only.log` and the genuinely empty directory `b`. -/
def cfgD : Config := ⟨"/w", .mtime, plainFilter, some 0, 1, true, true⟩

def treeD : Entry :=
  .node "w" (some dirStats)
    (.cons (.node "a" (some dirStats)
      (.cons (.node "only.log" (some fileStatsC) .nil) .nil))
      (.cons (.node "b" (some dirStats) .nil) .nil))

def aCandD : Cand := ⟨["a"], "/w/a", dirStats⟩

def bCandD : Cand := ⟨["b"], "/w/b", dirStats⟩

def rD1 : StepRes :=
  ⟨.node "w" (some dirStats) .nil, [onlyCandC, bCandD],
    [.rmFile ["a", "only.log"], .rmDir ["a"], .rmDir ["b"], .rmDir []]⟩

/-- **C10**: the deletion list returned by `clean` contains only entries the
policy loops deleted directly: every reported entry is an element of the
listing the corresponding loop captured; the pressure loop reports only
files; and a directory can be reported only through the age loop's explicit
empty-directory branch (hence only when `removeEmptyDirs` is on) — never
merely because the empty-parent cascade inside `delete` removed it.  In
particular with `removeEmptyDirs` off the list holds only files.  The
concrete `removeEmptyDirs = true` run exhibits the distinction: the cascade
removes directory `a` (its `rmdir` is logged, it is gone from the final
tree) yet `a` is not reported, while the genuinely empty directory `b`,
deleted directly by the loop, is reported. -/
theorem C10_cascade_dirs_unreported :
    (∀ (cfg : Config) (disk : DiskUsage) (now : Int) (dry : Bool)
      (fails : List (List String)) (t : Entry) (r1 r2 : StepRes)
      (l1 l2 : List Cand),
      t.listE cfg.folder = .ok l1 →
      expireModel cfg now dry fails t = .ok r1 →
      r1.tree.listE cfg.folder = .ok l2 →
      pressureModel cfg disk dry fails r1.tree = .ok r2 →
      cleanModel cfg disk now dry fails t =
        .ok ⟨r2.tree, r1.deleted ++ r2.deleted, r1.log ++ r2.log⟩ ∧
      (∀ c ∈ r1.deleted, c ∈ l1 ∧
        (c.stats.isDirectory = true → cfg.removeEmptyDirs = true)) ∧
      (∀ c ∈ r2.deleted, c ∈ l2 ∧ c.stats.isDirectory = false) ∧
      (cfg.removeEmptyDirs = false →
        ∀ c ∈ r1.deleted ++ r2.deleted, c.stats.isDirectory = false)) ∧
    (cleanModel cfgD disk8 1000 false [] treeD =
      .ok ⟨.node "w" (some dirStats) .nil, [onlyCandC, bCandD],
        [.rmFile ["a", "only.log"], .rmDir ["a"], .rmDir ["b"], .rmDir []]⟩ ∧
      treeD.listE cfgD.folder = .ok [aCandD, onlyCandC, bCandD] ∧
      ¬ aCandD ∈ [onlyCandC, bCandD] ∧
      Op.rmDir ["a"] ∈ ([.rmFile ["a", "only.log"], .rmDir ["a"],
        .rmDir ["b"], .rmDir []] : List Op) ∧
      (Entry.node "w" (some dirStats) Forest.nil).findAt ["a"] = none ∧
      bCandD ∈ [onlyCandC, bCandD] ∧ bCandD.stats.isDirectory = true) := by
  constructor
  · intro cfg disk now dry fails t r1 r2 l1 l2 hl1 h1 hl2 h2
    obtain ⟨l₀, hl₀, hr₀⟩ := expireModel_ok_listE h1
    rw [hl1] at hl₀
    injection hl₀ with hl₀
    subst hl₀
    refine ⟨cleanModel_comp h1 h2, ?_, ?_, ?_⟩
    · intro c hc
      rw [hr₀] at hc
      exact expireLoop_mem_src cfg now dry fails l1 t c hc
    · exact pressureModel_deleted_src hl2 h2
    · intro hred c hc
      rw [List.mem_append] at hc
      rcases hc with hc | hc
      · rw [hr₀] at hc
        exact expireLoop_no_dirs cfg now dry fails hred l1 t c hc
      · exact (pressureModel_deleted_src hl2 h2 c hc).2
  · refine ⟨?_, by decide, by decide, by decide, by decide, by decide, by decide⟩
    have h1 : expireModel cfgD 1000 false [] treeD =
        .ok ⟨.node "w" (some dirStats) .nil, [onlyCandC, bCandD],
          [.rmFile ["a", "only.log"], .rmDir ["a"], .rmDir ["b"], .rmDir []]⟩ := by
      decide
    have hl2 : (Entry.node "w" (some dirStats) Forest.nil).listE cfgD.folder =
        .ok [] := by decide
    have h2 := pressureModel_below false [] hl2 (by
      show (1 : Rat) - disk8.available / disk8.total < cfgD.pressure
      norm_num [disk8, cfgD])
    have h3 := cleanModel_comp h1 h2
    simpa using h3

theorem C10_witness :
    treeD.listE cfgD.folder = .ok [aCandD, onlyCandC, bCandD] ∧
    expireModel cfgD 1000 false [] treeD = .ok rD1 ∧
    rD1.tree.listE cfgD.folder = .ok [] ∧
    pressureModel cfgD disk8 false [] rD1.tree = .ok ⟨rD1.tree, [], []⟩ ∧
    (∀ c ∈ rD1.deleted, c ∈ [aCandD, onlyCandC, bCandD] ∧
      (c.stats.isDirectory = true → cfgD.removeEmptyDirs = true)) := by
  have hl1 : treeD.listE cfgD.folder = .ok [aCandD, onlyCandC, bCandD] := by
    decide
  have h1 : expireModel cfgD 1000 false [] treeD = .ok rD1 := by decide
  have hl2 : rD1.tree.listE cfgD.folder = .ok [] := by decide
  have h2 : pressureModel cfgD disk8 false [] rD1.tree = .ok ⟨rD1.tree, [], []⟩ :=
    pressureModel_below false [] hl2 (by
      show (1 : Rat) - disk8.available / disk8.total < cfgD.pressure
      norm_num [disk8, cfgD])
  exact ⟨hl1, h1, hl2, h2,
    (C10_cascade_dirs_unreported.1 cfgD disk8 1000 false [] treeD rD1
      ⟨rD1.tree, [], []⟩ [aCandD, onlyCandC, bCandD] [] hl1 h1 hl2 h2).2.1⟩

def aCand8 : Cand := ⟨["a"], "/watch/a", dirStats⟩

def newCand8 : Cand := ⟨["a", "new.log"], "/watch/a/new.log", newStats⟩

/-- **C1**: for every populated (well-formed) tree, a non-directory entry of
the captured list is deleted by the age policy iff the inclusion filter
matches it and `now - timestamp >= maxAge` (i.e. `now - timestamp < expire`
is false); with `expire = Infinity` (`none`) no entry is ever deleted by
age; and an entry failing either condition is left untouched in the tree by
the whole age pass. -/
theorem C1_age_policy_iff
    (cfg : Config) (now : Int) (dry : Bool) (fails : List (List String))
    (t : Entry) (htwf : t.wfB = true) (r : StepRes)
    (hr : expireModel cfg now dry fails t = .ok r)
    (l : List Cand) (hl : t.listE cfg.folder = .ok l)
    (c : Cand) (hc : c ∈ l) (hcfile : c.stats.isDirectory = false) :
    (c ∈ r.deleted ↔
      (filterMatch cfg.filter c.pathStr c.stats = true ∧
        ltExpire (now - c.stats.time cfg.timeType) cfg.expire = false)) ∧
    (cfg.expire = none → ¬ c ∈ r.deleted) ∧
    (fails = [] → shouldDelete cfg now c.pathStr c.stats = false →
      (r.tree.findAt c.path = t.findAt c.path ∧ r.tree.findAt c.path ≠ none)) := by
  obtain ⟨l₀, hl₀, hr₀⟩ := expireModel_ok_listE hr
  rw [hl] at hl₀
  injection hl₀ with hl₀
  subst hl₀
  subst hr₀
  have hmem := expireLoop_file_mem cfg now dry fails l t c hcfile
  have hiff : c ∈ (expireLoop cfg now dry fails l t).deleted ↔
      (filterMatch cfg.filter c.pathStr c.stats = true ∧
        ltExpire (now - c.stats.time cfg.timeType) cfg.expire = false) := by
    rw [hmem]
    constructor
    · intro ⟨_, h2⟩; exact (shouldDelete_iff cfg now c.pathStr c.stats).mp h2
    · intro h2; exact ⟨hc, (shouldDelete_iff cfg now c.pathStr c.stats).mpr h2⟩
  refine ⟨hiff, ?_, ?_⟩
  · intro hinf hmem2
    have h2 := (hiff.mp hmem2).2
    rw [hinf] at h2
    simp [ltExpire] at h2
  · intro hfails hsd
    subst hfails
    have hfacts := Entry.listE_facts htwf hl
    obtain ⟨hcne, hcstr, tgt, htgt, htgts⟩ := hfacts c hc
    have hpres := expireLoop_preserves cfg now dry t htwf c hcfile
      ⟨tgt, htgt, htgts⟩ hcstr hsd l hfacts t htwf rfl
    refine ⟨hpres, ?_⟩
    rw [hpres, htgt]
    intro h; cases h

theorem C1_witness :
    tree8.wfB = true ∧
    expireModel cfg8 0 false [] tree8 =
      .ok ⟨tree8after, [oldCand8], [.rmFile ["a", "old.log"]]⟩ ∧
    tree8.listE cfg8.folder = .ok [aCand8, oldCand8, newCand8] ∧
    newCand8 ∈ [aCand8, oldCand8, newCand8] ∧
    newCand8.stats.isDirectory = false ∧
    (¬ newCand8 ∈
      (⟨tree8after, [oldCand8], [Op.rmFile ["a", "old.log"]]⟩ : StepRes).deleted) ∧
    (⟨tree8after, [oldCand8], [Op.rmFile ["a", "old.log"]]⟩ : StepRes).tree.findAt
        newCand8.path = tree8.findAt newCand8.path := by
  have h := C1_age_policy_iff cfg8 0 false [] tree8 (by decide)
    ⟨tree8after, [oldCand8], [.rmFile ["a", "old.log"]]⟩ (by decide)
    [aCand8, oldCand8, newCand8] (by decide)
    newCand8 (by decide) (by decide)
  refine ⟨by decide, by decide, by decide, by decide, by decide, ?_, ?_⟩
  · intro hmem
    have h2 := h.1.mp hmem
    revert h2
    decide
  · exact (h.2.2 rfl (by decide)).1

/-- **C2**: the pressure policy returns the empty list (and leaves the tree
alone) when `1 - available/total < pressure`; otherwise it deletes only
files, oldest-first by the selected timestamp, freeing size bytes per file
until the freed amount brings the used fraction down to the threshold or the
file candidates are exhausted, and never deletes a newer file while an older
undeleted file remains. -/
theorem C2_pressure_policy
    (cfg : Config) (disk : DiskUsage) (dry : Bool) (fails : List (List String))
    (t : Entry) (l : List Cand) (hl : t.listE cfg.folder = .ok l)
    (htot : (0 : Rat) < disk.total) :
    ((1 - disk.available / disk.total < cfg.pressure →
      pressureModel cfg disk dry fails t = .ok ⟨t, [], []⟩)) ∧
    (¬ (1 - disk.available / disk.total < cfg.pressure) →
      ∀ r, pressureModel cfg disk dry fails t = .ok r →
        (∀ c ∈ r.deleted, c.stats.isDirectory = false) ∧
        (1 - (disk.available + sumSizes r.deleted) / disk.total ≤ cfg.pressure ∨
          ∀ c ∈ l, c.stats.isDirectory = false → c ∈ r.deleted) ∧
        r.deleted.Pairwise (fun a b =>
          a.stats.time cfg.timeType ≤ b.stats.time cfg.timeType) ∧
        (∀ d ∈ r.deleted, ∀ u ∈ l, u.stats.isDirectory = false →
          ¬ u ∈ r.deleted →
          d.stats.time cfg.timeType ≤ u.stats.time cfg.timeType)) := by
  refine ⟨fun hbelow => pressureModel_below dry fails hl hbelow, ?_⟩
  intro hnb r hr
  rw [pressureModel_engaged dry fails hl hnb] at hr
  injection hr with hr
  subst hr
  have spec := presLoop_spec cfg dry fails (fun c => c.stats.time cfg.timeType)
    ((sortD (fun c => c.stats.time cfg.timeType) l).reverse)
    ((disk.total - disk.available) - disk.total * cfg.pressure) t
  have hsubasc : (presLoop cfg dry fails
      ((sortD (fun c => c.stats.time cfg.timeType) l).reverse)
      ((disk.total - disk.available) - disk.total * cfg.pressure) t).deleted.Sublist
      ((sortD (fun c => c.stats.time cfg.timeType) l).reverse) :=
    spec.2.1.trans (List.filter_sublist _)
  have hmemasc : ∀ c : Cand,
      c ∈ (sortD (fun c => c.stats.time cfg.timeType) l).reverse ↔ c ∈ l := by
    intro c
    rw [List.mem_reverse]
    exact sortD_mem _ l c
  have hascpw : ((sortD (fun c => c.stats.time cfg.timeType) l).reverse).Pairwise
      (fun a b => a.stats.time cfg.timeType ≤ b.stats.time cfg.timeType) := by
    rw [List.pairwise_reverse]
    exact sortD_pairwise _ l
  refine ⟨?_, ?_, ?_, ?_⟩
  · intro c hc
    have hmem := spec.2.1.subset hc
    rw [List.mem_filter] at hmem
    simpa using hmem.2
  · rcases spec.1 with hacc | hall
    · left
      have hkey : (1 - cfg.pressure) * disk.total ≤
          disk.available + sumSizes (presLoop cfg dry fails
            ((sortD (fun c => c.stats.time cfg.timeType) l).reverse)
            ((disk.total - disk.available) - disk.total * cfg.pressure) t).deleted := by
        nlinarith [hacc]
      have h2 := (le_div_iff₀ htot).mpr hkey
      linarith
    · right
      intro c hc hcfile
      exact hall c ((hmemasc c).mpr hc) hcfile
  · exact hascpw.sublist hsubasc
  · intro d hd u hu hufile hnd
    exact spec.2.2 hascpw d hd u ((hmemasc u).mpr hu) hufile hnd

def cfgP : Config := ⟨"/w", .mtime, plainFilter, none, 1/2, false, true⟩

def f1 : Stats := ⟨30, 0, 10, 0, 0, false⟩

def f2 : Stats := ⟨30, 0, 5, 0, 0, false⟩

def f3 : Stats := ⟨30, 0, 1, 0, 0, false⟩

def treeP : Entry :=
  .node "w" (some dirStats)
    (.cons (.node "x" (some f1) .nil)
      (.cons (.node "y" (some f2) .nil)
        (.cons (.node "z" (some f3) .nil) .nil)))

def diskP : DiskUsage := ⟨100, 10⟩

def lP : List Cand := [⟨["x"], "/w/x", f1⟩, ⟨["y"], "/w/y", f2⟩, ⟨["z"], "/w/z", f3⟩]

def rP : StepRes :=
  ⟨.node "w" (some dirStats) (.cons (.node "x" (some f1) .nil) .nil),
    [⟨["z"], "/w/z", f3⟩, ⟨["y"], "/w/y", f2⟩],
    [.rmFile ["z"], .rmFile ["y"]]⟩

theorem C2_witness :
    (0 : Rat) < diskP.total ∧
    treeP.listE cfgP.folder = .ok lP ∧
    ¬ ((1 : Rat) - diskP.available / diskP.total < cfgP.pressure) ∧
    pressureModel cfgP diskP false [] treeP = .ok rP ∧
    (∀ c ∈ rP.deleted, c.stats.isDirectory = false) := by
  have hl : treeP.listE cfgP.folder = .ok lP := by decide
  have hnb : ¬ ((1 : Rat) - diskP.available / diskP.total < cfgP.pressure) := by
    norm_num [diskP, cfgP]
  have hr : pressureModel cfgP diskP false [] treeP = .ok rP := by
    simp only [pressureModel, hl]
    norm_num +decide [cfgP, diskP, lP, rP, sortD, insertD, presLoop, Stats.time,
      f1, f2, f3, deleteAt, deleteAtAux, deleteNode, deleteChildren, unwindStep,
      Entry.isDirB, Entry.stats, Forest.findC, Entry.name, Forest.removeC,
      Forest.replaceC, Forest.isNil, dirStats, treeP]
  exact ⟨by norm_num [diskP], hl, hnb, hr,
    ((C2_pressure_policy cfgP diskP false [] treeP lP hl
      (by norm_num [diskP])).2 hnb rP hr).1⟩

/-- **C3**: deleting the entry at `rel` with `keepEmptyParent = false` (no
storage failures) removes the target from the tree; an ancestor directory at
depth `i ≥ 1` is removed exactly when it and every deeper ancestor on the
path had the deleted child as its only child (so the cascade stops at the
first ancestor that still has other children); the in-memory root always
survives with its name and stats; and in the concrete §8 scenario `clean()`
deletes only `a/old.log` while `new.log` and the root `/watch` remain. -/
theorem C3_empty_parent_cascade
    (dry : Bool) (t : Entry) (htwf : t.wfB = true)
    (rel : List String) (hne : rel ≠ [])
    (hsome : (t.findAt rel).isSome = true) :
    ((deleteAt dry [] false t rel).1.name = t.name ∧
      (deleteAt dry [] false t rel).1.stats = t.stats) ∧
    (deleteAt dry [] false t rel).1.findAt rel = none ∧
    (∀ i, 1 ≤ i → i ≤ rel.length →
      ((deleteAt dry [] false t rel).1.findAt (rel.take i) = none ↔
        (∀ j, i ≤ j → j < rel.length → t.childCountAt (rel.take j) = 1))) ∧
    cleanModel cfg8 disk8 0 false [] tree8 =
      .ok ⟨tree8after, [oldCand8], [.rmFile ["a", "old.log"]]⟩ := by
  have hchar := deleteAtAux_cascade_char rel dry [] t htwf hsome hne
  obtain ⟨qn, hqn⟩ := Option.isSome_iff_exists.mp hsome
  refine ⟨?_, ?_, ?_, ?_⟩
  · simp only [deleteAt]
    cases hres : deleteAtAux dry [] false [] t rel with
    | mk o log =>
        cases o with
        | some t' => exact deleteAtAux_some_meta hres
        | none => exact ⟨rfl, rfl⟩
  · simp only [deleteAt]
    cases hres : deleteAtAux dry [] false [] t rel with
    | mk o log =>
        cases o with
        | some t' =>
            exact deleteAtAux_target_gone rel dry [] false [] t qn hqn hne
              (Or.inr (Or.inr (by simp))) t' (by rw [hres])
        | none => exact nodeNil_findAt _ _ hne
  · intro i h1 h2
    simp only [deleteAt]
    cases hres : deleteAtAux dry [] false [] t rel with
    | mk o log =>
        cases o with
        | some t' => exact hchar.2 t' (by rw [hres]) i h1 h2
        | none =>
            have hall := hchar.1.mp (by rw [hres])
            constructor
            · intro _ j _ hj
              exact hall j hj
            · intro _
              apply nodeNil_findAt
              cases rel with
              | nil => exact absurd rfl hne
              | cons x xs =>
                  rw [take_cons_of_pos x xs h1]
                  intro hcon; cases hcon
  · have h1 : expireModel cfg8 0 false [] tree8 =
        .ok ⟨tree8after, [oldCand8], [.rmFile ["a", "old.log"]]⟩ := by decide
    have hl2 : tree8after.listE cfg8.folder = .ok
        [⟨["a"], "/watch/a", dirStats⟩,
          ⟨["a", "new.log"], "/watch/a/new.log", newStats⟩] := by decide
    have h2 := pressureModel_below false [] hl2 (by
      show (1 : Rat) - disk8.available / disk8.total < cfg8.pressure
      norm_num [disk8, cfg8])
    have h3 := cleanModel_comp h1 h2
    simpa using h3

theorem C3_witness :
    treeC.wfB = true ∧
    (treeC.findAt ["a", "only.log"]).isSome = true ∧
    (deleteAt false [] false treeC ["a", "only.log"]).1.findAt
      ["a", "only.log"] = none ∧
    ((deleteAt false [] false treeC ["a", "only.log"]).1.findAt
        (["a", "only.log"].take 1) = none ↔
      (∀ j, 1 ≤ j → j < (["a", "only.log"] : List String).length →
        treeC.childCountAt (["a", "only.log"].take j) = 1)) := by
  have h := C3_empty_parent_cascade false treeC (by decide) ["a", "only.log"]
    (by decide) (by decide)
  exact ⟨by decide, by decide, h.2.1, h.2.2.1 1 (by decide) (by decide)⟩

/-- **C6**: a `delete` call on the entry at `rel` detaches it from its
parent's children mapping when its own storage mutation succeeds (dry run,
kept-empty directory, or not in the failure set); when the storage mutation
for that entry fails, the entry remains reachable at its path with its name
and stats intact (the failure is caught: the model's `deleteAt` is total, no
exception propagates); and entries on incomparable paths (sibling subtrees)
are unaffected either way. -/
theorem C6_delete_detach_or_stay
    (dry kep : Bool) (fails : List (List String))
    (t : Entry) (htwf : t.wfB = true)
    (rel : List String) (hne : rel ≠ [])
    (qn : Entry) (hqn : t.findAt rel = some qn) :
    ((dry = true ∨ (qn.isDirB = true ∧ kep = true) ∨ ¬ rel ∈ fails) →
      (deleteAt dry fails kep t rel).1.findAt rel = none) ∧
    (dry = false → rel ∈ fails → (qn.isDirB = false ∨ kep = false) →
      ∃ qn', (deleteAt false fails kep t rel).1.findAt rel = some qn' ∧
        qn'.name = qn.name ∧ qn'.stats = qn.stats) ∧
    (∀ q, Incomp q rel → t.findAt q ≠ none →
      (deleteAt dry fails kep t rel).1.findAt q = t.findAt q) := by
  refine ⟨?_, ?_, ?_⟩
  · intro hdrop
    simp only [deleteAt]
    cases hres : deleteAtAux dry fails kep [] t rel with
    | mk o log =>
        cases o with
        | some t' =>
            refine deleteAtAux_target_gone rel dry fails kep [] t qn hqn hne
              ?_ t' (by rw [hres])
            rcases hdrop with h | h | h
            · exact Or.inl h
            · exact Or.inr (Or.inl h)
            · exact Or.inr (Or.inr (by simpa using h))
        | none => exact nodeNil_findAt _ _ hne
  · intro _ hfail hnk
    obtain ⟨e', qn', hfst, hfind, hname, hstats⟩ :=
      deleteAtAux_target_stay rel fails kep [] t qn hqn hne
        (by simpa using hfail) hnk
    refine ⟨qn', ?_, hname, hstats⟩
    simp only [deleteAt]
    cases hres : deleteAtAux false fails kep [] t rel with
    | mk o log =>
        rw [hres] at hfst
        simp only at hfst
        subst hfst
        exact hfind
  · intro q hq hpres
    exact deleteAt_fst_incomp htwf hq hpres

theorem C6_witness :
    tree8.wfB = true ∧
    tree8.findAt ["a", "old.log"] =
      some (.node "old.log" (some oldStats) .nil) ∧
    (deleteAt false [] false tree8 ["a", "old.log"]).1.findAt
      ["a", "old.log"] = none ∧
    (∃ qn', (deleteAt false [["a", "old.log"]] false tree8
        ["a", "old.log"]).1.findAt ["a", "old.log"] = some qn' ∧
      qn'.name = (Entry.node "old.log" (some oldStats) Forest.nil).name ∧
      qn'.stats = (Entry.node "old.log" (some oldStats) Forest.nil).stats) ∧
    (deleteAt false [["a", "old.log"]] false tree8 ["a", "old.log"]).1.findAt
      ["a", "new.log"] = tree8.findAt ["a", "new.log"] := by
  have h1 := C6_delete_detach_or_stay false false [] tree8 (by decide)
    ["a", "old.log"] (by decide)
    (.node "old.log" (some oldStats) .nil) (by decide)
  have h2 := C6_delete_detach_or_stay false false [["a", "old.log"]] tree8
    (by decide) ["a", "old.log"] (by decide)
    (.node "old.log" (some oldStats) .nil) (by decide)
  refine ⟨by decide, by decide, ?_, ?_, ?_⟩
  · exact h1.1 (Or.inr (Or.inr (by decide)))
  · exact h2.2.1 rfl (by decide) (Or.inl (by decide))
  · exact h2.2.2 ["a", "new.log"] ⟨by decide, by decide⟩ (by decide)

/-- The §8 filesystem: `/watch` containing `a/old.log` and `a/new.log`. -/
def fs8 : FSIface where
  statP := fun p =>
    if p = [] then .ok dirStats
    else if p = ["a"] then .ok dirStats
    else if p = ["a", "old.log"] then .ok oldStats
    else if p = ["a", "new.log"] then .ok newStats
    else .error ()
  listDir := fun p =>
    if p = [] then .ok ["a"]
    else if p = ["a"] then .ok ["old.log", "new.log"]
    else .error ()

def tree8rAfter : Entry :=
  .node "" (some dirStats)
    (.cons (.node "a" (some dirStats)
      (.cons (.node "new.log" (some newStats) .nil) .nil)) .nil)

theorem C8_witness :
    expireModel cfg8 0 false [] (buildRoot fs8 3) =
      .ok ⟨tree8rAfter, [oldCand8], [.rmFile ["a", "old.log"]]⟩ ∧
    pressureModel cfg8 disk8 false []
      ((⟨tree8rAfter, [oldCand8], [Op.rmFile ["a", "old.log"]]⟩ : StepRes).tree) =
      .ok ⟨tree8rAfter, [], []⟩ ∧
    cleanFS cfg8 disk8 0 false [] fs8 3 =
      .ok ⟨tree8rAfter, [oldCand8] ++ [], [Op.rmFile ["a", "old.log"]] ++ []⟩ := by
  have h1 : expireModel cfg8 0 false [] (buildRoot fs8 3) =
      .ok ⟨tree8rAfter, [oldCand8], [.rmFile ["a", "old.log"]]⟩ := by decide
  have hl : tree8rAfter.listE cfg8.folder = .ok
      [⟨["a"], "/watch/a", dirStats⟩,
        ⟨["a", "new.log"], "/watch/a/new.log", newStats⟩] := by decide
  have h2 : pressureModel cfg8 disk8 false []
      ((⟨tree8rAfter, [oldCand8], [Op.rmFile ["a", "old.log"]]⟩ : StepRes).tree) =
      .ok ⟨tree8rAfter, [], []⟩ :=
    pressureModel_below false [] hl (by
      show (1 : Rat) - disk8.available / disk8.total < cfg8.pressure
      norm_num [disk8, cfg8])
  exact ⟨h1, h2, (C8_clean_composition cfg8 disk8 0 false [] fs8 3
    ⟨tree8rAfter, [oldCand8], [.rmFile ["a", "old.log"]]⟩
    ⟨tree8rAfter, [], []⟩ h1 h2).1⟩

theorem C9_witness :
    (¬ ∃ e, construct "/a/b/c" false "mtime" plainFilter none 1 false true =
      .error e) ∧
    (∃ e, construct "" false "mtime" plainFilter none 1 false true =
      .error e) := by
  constructor
  · intro h
    have h2 := (C9_constructor_validation.1 "/a/b/c" false "mtime" plainFilter
      none 1 false true).mp h
    revert h2
    decide
  · exact (C9_constructor_validation.1 "" false "mtime" plainFilter
      none 1 false true).mpr (Or.inl rfl)

end ExpireFS
